import Mathlib

/-!
# Crypt Underworld: the logger (`src/log.cpp`) and the default device

A shallow embedding of the entry formatter and of the logger facade of
`src/log.cpp`, and of `PhysDevices::populate_default` of
`src/phys_devices.cpp`, followed by theorems about them.

Conventions of the embedding.

* `std::string` is `List Char`; strings are unbounded (no `max_size`), and the
  unsigned `size_type` is `Nat` (every subtraction of the source is guarded so
  that it cannot wrap, see the remarks at each definition).
* `log.hpp` is not part of the sources at hand.  The two string constants it
  declares, `LoggableObjMember::spacer` and `Log::indentation`, are therefore
  not fixed here: `spacer` is a parameter of the rendering functions and
  `indentation` is a field of the logger state that no operation writes.
* A function of the source that can throw returns an `Option`, `none` being
  the exception; the callers that `catch (...)` are written with a `match`.
* For the operations of `Log`, which are all `noexcept`, the result `none`
  means that the call does not return (the indentation scan never leaves its
  loop, or the calling thread blocks on a held mutex).
* Exceptions raised by the environment (allocation failure, a failing
  `lock()`) are made explicit by a `Faults` argument; `no_faults` is the run
  in which none occurs.
* Standard output is the ghost field `cout`: the list of the strings written
  by `std::cout << entry`, one element per call of `write_entry`.
-/

namespace cu

/-! ## Entry formatter -/

/-- A member of a loggable object: its name and its value, already converted
to text by the constructor. -/
structure LoggableObjMember where
  name : List Char
  value : List Char
deriving DecidableEq, Repr

/-- A loggable object: a name and its members in display order. -/
structure LoggableObj where
  name : List Char
  members : List LoggableObjMember
deriving DecidableEq, Repr

/-- The loop `for (i = 0; i < n; ++i) s.push_back(' ')`. -/
def push_spaces : Nat → List Char → List Char
  | 0, s => s
  | n + 1, s => push_spaces n (s ++ [' '])

/-- The function `LoggableObjMember::str(extra_spaces)`. -/
def LoggableObjMember.str (spacer : List Char) (m : LoggableObjMember)
    (extra_spaces : Nat) : List Char :=
  let opening := m.name ++ spacer
  let opening_len := opening.length
  let padding : List Char :=
    if extra_spaces > opening_len then
      let space_cnt := extra_spaces - opening_len
      push_spaces space_cnt []
    else []
  m.name ++ spacer ++ padding ++ m.value

/-- The loop of `LoggableObj::str` that finds the longest member name. -/
def longest_name_len : List LoggableObjMember → Nat → Nat
  | [], longest => longest
  | m :: ms, longest =>
    let name_len := m.name.length
    longest_name_len ms (if name_len > longest then name_len else longest)

/-- The loop `for (i = 1; i < members.size() - 1; ++i)` of `LoggableObj::str`,
started at index `i` with the stream contents `ss`.  The first argument bounds
the number of iterations (`members.size()` is always enough); `none` is a
failing `members.at(i)` or an exhausted bound. -/
def str_interior (spacer indent : List Char) (members : List LoggableObjMember)
    (member_indent_spaces : Nat) : Nat → Nat → List Char → Option (List Char)
  | 0, i, ss => if i < members.length - 1 then none else some ss
  | fuel + 1, i, ss =>
    if i < members.length - 1 then
      match members[i]? with
      | none => none
      | some m =>
        str_interior spacer indent members member_indent_spaces fuel (i + 1)
          (ss ++ indent ++ m.str spacer member_indent_spaces ++ ",\n".toList)
    else some ss

/-- The function `LoggableObj::str()`. -/
def LoggableObj.str (spacer : List Char) (obj : LoggableObj) : Option (List Char) :=
  if obj.members.length = 0 then some []
  else
    let opening := obj.name ++ " \x7b ".toList
    let longest := longest_name_len obj.members 0
    let member_indent_spaces := longest + spacer.length
    match obj.members[0]? with
    | none => none
    | some m0 =>
      let ss := opening ++ m0.str spacer member_indent_spaces
      if obj.members.length = 1 then some (ss ++ " \x7d\n".toList)
      else
        let indent := push_spaces opening.length []
        let ss := ss ++ ",\n".toList
        match str_interior spacer indent obj.members member_indent_spaces
            obj.members.length 1 ss with
        | none => none
        | some ss =>
          match obj.members.getLast? with
          | none => none
          | some ml =>
            some (ss ++ indent ++ ml.str spacer member_indent_spaces ++ " \x7d\n".toList)

/-! ## Logger state -/

/-- The state of `Log`, with standard output as a ghost field.  The member `on`
of the source is the field `is_on` (`on` is a reserved word here). -/
structure Log where
  is_on : Bool
  async : Bool
  stopped : Bool
  indent_amt : Nat
  indentation : List Char
  msgs : List (List Char)
  msgs_mutex : Bool
  emptier : Nat
  cout : List (List Char)
deriving DecidableEq, Repr

/-- The exceptions the environment raises during one call: `lock` is a throwing
`msgs_mutex.lock()`, `insert` a throwing `entry.insert`, `append` a throwing
`entry += "\n"`, `push` a throwing `msgs.push_back`. -/
structure Faults where
  lock : Bool
  insert : Bool
  append : Bool
  push : Bool
deriving DecidableEq, Repr

/-- The run in which the environment raises no exception. -/
def no_faults : Faults := ⟨false, false, false, false⟩

/-- The call `entry.insert(i, s)`, for `i ≤ entry.size()`. -/
def insert_at (entry : List Char) (i : Nat) (s : List Char) : List Char :=
  entry.take i ++ s ++ entry.drop i

/-- The loop `for (j = 0; j < indent_amt; ++j) entry.insert(i, indentation)`. -/
def insert_copies (indentation : List Char) (i : Nat) : Nat → List Char → List Char
  | 0, entry => entry
  | n + 1, entry => insert_copies indentation i n (insert_at entry i indentation)

/-- The loop `for (i = 0; i < entry.size(); ++i)` of `Log::indent_entry`, from
the loop state `(entry, i, insert)`, for at most as many iterations as the
first numeric argument says.  The result is `none` when the loop has not been
left after that many iterations, `some (false, _)` when an exception was caught
(a throwing `entry.insert`, which needs `indent_amt > 0` to be called at all, or
a failing `entry.at(i)`) and `some (true, entry)` when the loop was left
normally.  The subtraction `entry.size() - 1` is only evaluated when
`i < entry.size()`, so it does not wrap. -/
def indent_scan (insert_throws : Bool) (indentation : List Char) (indent_amt : Nat) :
    Nat → List Char → Nat → Bool → Option (Bool × List Char)
  | 0, _, _, _ => none
  | fuel + 1, entry, i, insert =>
    if i < entry.length then
      if insert && insert_throws && decide (0 < indent_amt) then some (false, entry)
      else
        let entry1 := if insert then insert_copies indentation i indent_amt entry else entry
        let insert1 := if insert then false else insert
        match entry1[i]? with
        | none => some (false, entry1)
        | some c =>
          let insert2 := if c = '\n' ∧ i < entry1.length - 1 then true else insert1
          indent_scan insert_throws indentation indent_amt fuel entry1 (i + 1) insert2
    else some (true, entry)

/-- The loop of `indent_scan` with a ghost counter: the last component of the
result is the counter `cnt` increased by the number of times the block
`if (insert) { ... }` was executed. -/
def indent_scan_count (insert_throws : Bool) (indentation : List Char) (indent_amt : Nat) :
    Nat → List Char → Nat → Bool → Nat → Option (Bool × List Char × Nat)
  | 0, _, _, _, _ => none
  | fuel + 1, entry, i, insert, cnt =>
    if i < entry.length then
      if insert && insert_throws && decide (0 < indent_amt) then some (false, entry, cnt)
      else
        let entry1 := if insert then insert_copies indentation i indent_amt entry else entry
        let cnt1 := if insert then cnt + 1 else cnt
        let insert1 := if insert then false else insert
        match entry1[i]? with
        | none => some (false, entry1, cnt1)
        | some c =>
          let insert2 := if c = '\n' ∧ i < entry1.length - 1 then true else insert1
          indent_scan_count insert_throws indentation indent_amt fuel entry1 (i + 1) insert2 cnt1
    else some (true, entry, cnt)

/-- A number of iterations that the scan of a non-empty `entry` does not exceed
when the literal has no newline: every iteration advances `i` by one, the loop
is left when `i` reaches the length of the entry, and the entry grows by at most
`indent_amt` copies of the literal per character (`scan_bound_enough`). -/
def scan_bound (indentation : List Char) (indent_amt : Nat) (entry : List Char) : Nat :=
  entry.length + entry.length * (indent_amt * indentation.length) + 1

/-- The function `Log::indent_entry(entry)`: the returned flag and the entry
as the call leaves it; `none` when the scan is still running after
`scan_bound` iterations. -/
def Log.indent_entry (flt : Faults) (st : Log) (entry : List Char) :
    Option (Bool × List Char) :=
  if st.indent_amt > 0 then
    indent_scan flt.insert st.indentation st.indent_amt
      (scan_bound st.indentation st.indent_amt entry) entry 0 true
  else some (true, entry)

/-- The function `Log::indent_entry(entry)` with the ghost counter of
`indent_scan_count`: the last component of the result is the number of times
the insertion block was executed; each execution calls `entry.insert`
`indent_amt` times. -/
def Log.indent_entry_count (flt : Faults) (st : Log) (entry : List Char) :
    Option (Bool × List Char × Nat) :=
  if st.indent_amt > 0 then
    indent_scan_count flt.insert st.indentation st.indent_amt
      (scan_bound st.indentation st.indent_amt entry) entry 0 true 0
  else some (true, entry, 0)

/-- The function `Log::append_newline(entry, newline)`. -/
def append_newline (flt : Faults) (entry : List Char) (newline : Bool) : Bool × List Char :=
  if newline then
    if flt.append then (false, entry) else (true, entry ++ "\n".toList)
  else (true, entry)

/-- The function `Log::format_entry(entry, newline)`. -/
def Log.format_entry (flt : Faults) (st : Log) (entry : List Char) (newline : Bool) :
    Option (Bool × List Char) :=
  match st.indent_entry flt entry with
  | none => none
  | some (false, e) => some (false, e)
  | some (true, e) => some (append_newline flt e newline)

/-- The function `write_entry(entry)`: `std::cout << entry`. -/
def Log.write_entry (st : Log) (entry : List Char) : Log :=
  { st with cout := st.cout ++ [entry] }

/-- The function `Log::enter_async(entry, newline)`. -/
def Log.enter_async (flt : Faults) (st : Log) (entry : List Char) (newline : Bool) :
    Option Log :=
  if flt.lock then some st
  else if st.msgs_mutex then none
  else
    let st1 := { st with msgs_mutex := true }
    match st1.format_entry flt entry newline with
    | none => none
    | some (false, _) => some { st1 with msgs_mutex := false }
    | some (true, e) =>
      if flt.push then some { st1 with msgs_mutex := false }
      else
        let st2 := { st1 with msgs := st1.msgs ++ [e] }
        some { st2 with msgs_mutex := false }

/-- The function `Log::enter_sync(entry, newline)`. -/
def Log.enter_sync (flt : Faults) (st : Log) (entry : List Char) (newline : Bool) :
    Option Log :=
  match st.format_entry flt entry newline with
  | none => none
  | some (false, _) => some st
  | some (true, e) => some (st.write_entry e)

/-- The function `Log::enter(std::string entry, bool newline)`. -/
def Log.enter (flt : Faults) (st : Log) (entry : List Char) (newline : Bool) : Option Log :=
  if st.is_on && !entry.isEmpty then
    if st.async then st.enter_async flt entry newline
    else st.enter_sync flt entry newline
  else some st

/-- The loop `for (i = 0; i < entries.size() - 1; ++i)` of the list overload of
`Log::enter`, from index `i` with the text `entry` built so far (it is only
reached with at least two entries).  The first argument bounds the number of
iterations; `none` is a failing `entries.at(i)` or an exhausted bound. -/
def join_entries (entries : List (List Char)) : Nat → Nat → List Char → Option (List Char)
  | 0, i, entry => if i < entries.length - 1 then none else some entry
  | fuel + 1, i, entry =>
    if i < entries.length - 1 then
      match entries[i]? with
      | none => none
      | some e => join_entries entries fuel (i + 1) (entry ++ (e ++ ", ".toList))
    else some entry

/-- The text built inside the `try` block of the list overload of `Log::enter`. -/
def list_entry (name : List Char) (entries : List (List Char)) : Option (List Char) :=
  let entry := name ++ ": ".toList
  if entries.length = 0 then some (entry ++ "<none>\n".toList)
  else if entries.length = 1 then
    match entries.head? with
    | none => none
    | some e => some (entry ++ (e ++ "\n".toList))
  else
    match join_entries entries entries.length 0 entry with
    | none => none
    | some entry =>
      match entries.getLast? with
      | none => none
      | some e => some (entry ++ (e ++ "\n".toList))

/-- The function `Log::enter(std::string name, std::vector<const char*>& entries)`. -/
def Log.enter_list (flt : Faults) (st : Log) (name : List Char)
    (entries : List (List Char)) : Option Log :=
  if st.is_on then
    match list_entry name entries with
    | none => some st
    | some entry => st.enter flt entry false
  else some st

/-- The function `Log::enter_obj(obj)`. -/
def Log.enter_obj (spacer : List Char) (flt : Faults) (st : Log) (obj : LoggableObj) :
    Option Log :=
  if st.is_on then
    match obj.str spacer with
    | none => some st
    | some s => st.enter flt s false
  else some st

/-- The function `Log::attempt(entry)`. -/
def Log.attempt (flt : Faults) (st : Log) (entry : List Char) : Option Log :=
  st.enter flt (entry ++ "...".toList) false

/-- The function `Log::indent()`. -/
def Log.indent (st : Log) : Log :=
  { st with indent_amt := 1 }

/-- The function `Log::indent(amt)`. -/
def Log.indent_to (st : Log) (amt : Nat) : Log :=
  { st with indent_amt := amt }

/-- The function `Log::finish()`: the call `enter("OK")`.  The default value of
the parameter `newline` is declared in `log.hpp`; it is the argument
`default_newline` here. -/
def Log.finish (default_newline : Bool) (flt : Faults) (st : Log) : Option Log :=
  st.enter flt "OK".toList default_newline

/-- The function `Log::brk()`. -/
def Log.brk (flt : Faults) (st : Log) : Option Log :=
  let st1 := { st with indent_amt := 0 }
  st1.enter flt "\n".toList false

/-- The function `Log::turn_on()`. -/
def Log.turn_on (st : Log) : Log :=
  { st with is_on := true }

/-- The function `Log::turn_off()`. -/
def Log.turn_off (st : Log) : Log :=
  { st with is_on := false }

/-- The body of the loop of `Log::empty_queue`: write the front of the queue and
pop it.  The loop only runs it on a non-empty queue. -/
def Log.write_front (st : Log) : Log :=
  match st.msgs with
  | [] => st
  | m :: ms => { st.write_entry m with msgs := ms }

/-- The loop `while (!msgs.empty())` of `Log::empty_queue`, for at most as many
iterations as the first argument says (`msgs.size()` is enough). -/
def Log.drain : Nat → Log → Log
  | 0, st => st
  | fuel + 1, st => if st.msgs.isEmpty then st else Log.drain fuel st.write_front

/-- The function `Log::empty_queue()`. -/
def Log.empty_queue (flt : Faults) (st : Log) : Option Log :=
  if flt.lock then some st
  else if st.msgs_mutex then none
  else
    let st1 := { st with msgs_mutex := true }
    let st2 := Log.drain st1.msgs.length st1
    some { st2 with msgs_mutex := false }

/-- The function `Log::async_on()`; the ghost field `emptier` counts the drain
workers that are running. -/
def Log.async_on (st : Log) : Log :=
  if !st.async then { st with emptier := st.emptier + 1, async := true }
  else st

/-- The function `Log::async_off()`, with no other producer running: joining
the worker lets it see `stopped`, run its last `empty_queue` and end.  (While
`async` is set the worker is in its loop: `stopped` is written by `async_off`
and by the destructor only.) -/
def Log.async_off (flt : Faults) (st : Log) : Option Log :=
  if st.async then
    let stopped_memo := st.stopped
    let st1 := { st with stopped := true }
    match st1.empty_queue flt with
    | none => none
    | some st2 =>
      let st3 := { st2 with emptier := st2.emptier - 1 }
      some { st3 with async := false, stopped := stopped_memo }
  else some st

/-- The function `Log::wait_to_empty()`, which the drain worker runs: the loop
`while (!stopped) empty_queue();` for the `passes` passes the worker makes
before it reads `stopped == true` (the flag is written by another thread), then
the last `empty_queue()`. -/
def Log.wait_to_empty (flt : Faults) : Nat → Log → Option Log
  | 0, st => st.empty_queue flt
  | passes + 1, st =>
    match st.empty_queue flt with
    | none => none
    | some st1 => Log.wait_to_empty flt passes st1

/-! ## Physical devices (`src/phys_devices.cpp`) -/

/-- The enumeration `VkPhysicalDeviceType` of the Vulkan headers. -/
inductive VkPhysicalDeviceType where
  | other
  | integrated_gpu
  | discrete_gpu
  | virtual_gpu
  | cpu
deriving DecidableEq, Repr

/-- The members of `PhysDevice` that `PhysDevices::populate_default` reads: the
device type and the size of the device memory (`VkDeviceSize`). -/
structure PhysDevice where
  type : VkPhysicalDeviceType
  mem : Nat
deriving DecidableEq, Repr

/-- The members of `PhysDevices` that `populate_default` reads and writes. -/
structure PhysDevices where
  devs : List PhysDevice
  default_dev : Nat
deriving DecidableEq, Repr

/-- The local variables `ndx`, `mem` and `type` of `populate_default`. -/
structure Selection where
  ndx : Nat
  mem : Nat
  type : VkPhysicalDeviceType
deriving DecidableEq, Repr

/-- The body of the loop of `populate_default` for the device `dev` at index `i`. -/
def select_step (i : Nat) (dev : PhysDevice) (s : Selection) : Selection :=
  if (dev.type = VkPhysicalDeviceType.discrete_gpu
        ∧ s.type ≠ VkPhysicalDeviceType.discrete_gpu)
      ∨ (dev.type = VkPhysicalDeviceType.integrated_gpu
        ∧ s.type = VkPhysicalDeviceType.cpu)
      ∨ (dev.mem > s.mem ∧ dev.type = s.type) then
    ⟨i, dev.mem, dev.type⟩
  else s

/-- The loop `for (i = 0; i < devs.size(); ++i)` of `populate_default`, from
index `i` with the local variables `s`.  The first argument bounds the number
of iterations (`devs.size()` is enough); `none` is a failing `devs.at(i)` or an
exhausted bound. -/
def select_loop (devs : List PhysDevice) : Nat → Nat → Selection → Option Selection
  | 0, i, s => if i < devs.length then none else some s
  | fuel + 1, i, s =>
    if i < devs.length then
      match devs[i]? with
      | none => none
      | some dev => select_loop devs fuel (i + 1) (select_step i dev s)
    else some s

/-- The function `PhysDevices::populate_default()`: the exception it throws, or
the object as the function leaves it.  The two calls that end the function,
`log.enter("default phys. device", default_dev)` and `log.brk()`, act on the
global logger only and are not part of this state. -/
def PhysDevices.populate_default (pd : PhysDevices) : Except String PhysDevices :=
  if pd.devs.length = 0 then
    Except.error "no Vulkan-capable devices found!"
  else if pd.devs.length = 1 then
    Except.ok { pd with default_dev := 0 }
  else
    match select_loop pd.devs pd.devs.length 0 ⟨0, 0, VkPhysicalDeviceType.cpu⟩ with
    | none => Except.error "out_of_range"
    | some s => Except.ok { pd with default_dev := s.ndx }

/-! ## Reference definitions, in the words of the specification -/

/-- The member text the specification describes for an alignment column `c`. -/
def member_text (spacer : List Char) (m : LoggableObjMember) (c : Nat) : List Char :=
  m.name ++ spacer ++ List.replicate (c - (m.name.length + spacer.length)) ' ' ++ m.value

/-- The longest member-name length of a list of members (0 for no member). -/
def longest_name (members : List LoggableObjMember) : Nat :=
  (members.map (fun m => m.name.length)).foldr max 0

/-- The separator between two members: `",\n"` and `name.size() + 3` spaces. -/
def member_sep (name : List Char) : List Char :=
  ",\n".toList ++ List.replicate (name.length + 3) ' '

/-- The rendering of an object with at least one member, in the words of the
specification. -/
def str_spec (spacer : List Char) (obj : LoggableObj) : List Char :=
  obj.name ++ " \x7b ".toList
    ++ (member_sep obj.name).intercalate
        (obj.members.map (fun m => m.str spacer (longest_name obj.members + spacer.length)))
    ++ " \x7d\n".toList

/-- The member text with the padding of an object whose longest member name
has `longest` characters: `longest - name.size()` spaces after the spacer. -/
def aligned_text (spacer : List Char) (longest : Nat) (m : LoggableObjMember) : List Char :=
  m.name ++ spacer ++ List.replicate (longest - m.name.length) ' ' ++ m.value

/-- The object of the rendering example: `dims` with `w = 10`, then `h = 2000`. -/
def dims : LoggableObj :=
  ⟨"dims".toList, [⟨"w".toList, "10".toList⟩, ⟨"h".toList, "2000".toList⟩]⟩

/-- The text made of `k` copies of `L`. -/
def copies (L : List Char) (k : Nat) : List Char :=
  (List.replicate k L).flatten

/-- The reference for the inner insertions: `k` copies of `L` right after every
newline of the entry that is not its last character, nothing else changed. -/
def indent_after_newlines (L : List Char) (k : Nat) : List Char → List Char
  | [] => []
  | c :: rest =>
    if c = '\n' ∧ rest ≠ [] then c :: (copies L k ++ indent_after_newlines L k rest)
    else c :: indent_after_newlines L k rest

/-- The reference result of indenting a non-empty entry: `k` copies of `L` at
position 0 and after every newline that is not the last character. -/
def indent_spec (L : List Char) (k : Nat) (e : List Char) : List Char :=
  copies L k ++ indent_after_newlines L k e

/-- The number of internal newlines of an entry: the newline characters that
are not its last character. -/
def internal_newlines : List Char → Nat
  | [] => 0
  | c :: rest => (if c = '\n' ∧ rest ≠ [] then 1 else 0) + internal_newlines rest

/-- A logger that is switched on, synchronous, at depth 2 with the indentation
literal `"--"`, with an empty queue and nothing written yet. -/
def sample_log : Log :=
  ⟨true, false, false, 2, "--".toList, [], false, 0, []⟩

/-- The text `format_entry` makes of a non-empty entry: the indented entry,
then a newline when `newline` is set. -/
def formatted (L : List Char) (k : Nat) (e : List Char) (newline : Bool) : List Char :=
  indent_spec L k e ++ (if newline then "\n".toList else [])

/-- The state after the text `t` has been emitted: written to standard output
in synchronous mode, appended to the back of the queue in asynchronous mode. -/
def Log.emit (st : Log) (t : List Char) : Log :=
  if st.async then { st with msgs := st.msgs ++ [t] } else { st with cout := st.cout ++ [t] }

/-- The text of the list overload of `enter`, in the words of the
specification: the name, `": "`, then `"<none>"` or the items joined by `", "`,
then a newline. -/
def list_text (name : List Char) (entries : List (List Char)) : List Char :=
  name ++ ": ".toList
    ++ (if entries = [] then "<none>".toList else ", ".toList.intercalate entries)
    ++ "\n".toList

/-- A logger that is switched on, synchronous, at depth 1 with an indentation
literal of four blanks, with an empty queue and nothing written yet. -/
def indented_log : Log :=
  ⟨true, false, false, 1, "    ".toList, [], false, 0, []⟩

/-- The submission operations of the logger facade. -/
inductive Submission where
  | enter (text : List Char) (newline : Bool)
  | enter_list (name : List Char) (entries : List (List Char))
  | enter_obj (obj : LoggableObj)
  | attempt (text : List Char)
  | finish
  | brk
deriving DecidableEq, Repr

/-- One submission operation, called under the faults `flt`. -/
def Log.submit (spacer : List Char) (default_newline : Bool) (flt : Faults) (st : Log) :
    Submission → Option Log
  | .enter text newline => st.enter flt text newline
  | .enter_list name entries => st.enter_list flt name entries
  | .enter_obj obj => st.enter_obj spacer flt obj
  | .attempt text => st.attempt flt text
  | .finish => st.finish default_newline flt
  | .brk => st.brk flt

/-- A sequence of submission operations, each called under its own faults, one
after the other; `none` when one of the calls does not return. -/
def Log.submit_all (spacer : List Char) (default_newline : Bool) (st : Log) :
    List (Faults × Submission) → Option Log
  | [] => some st
  | (flt, op) :: ops =>
    match st.submit spacer default_newline flt op with
    | none => none
    | some st1 => Log.submit_all spacer default_newline st1 ops

/-- A step of an asynchronous run: a producer calls `enter(entry, newline)`, the
drain worker executes the body of the loop of `empty_queue` once (it writes the
front of the queue and pops it), or the worker executes a whole `empty_queue`. -/
inductive AsyncStep where
  | submit (entry : List Char) (newline : Bool)
  | pop
  | drain
deriving DecidableEq, Repr

/-- One step of an asynchronous run, without faults. -/
def Log.async_step (st : Log) : AsyncStep → Option Log
  | .submit entry newline => st.enter no_faults entry newline
  | .pop => some st.write_front
  | .drain => st.empty_queue no_faults

/-- A sequence of steps of an asynchronous run. -/
def Log.async_run (st : Log) : List AsyncStep → Option Log
  | [] => some st
  | step :: steps =>
    match st.async_step step with
    | none => none
    | some st1 => Log.async_run st1 steps

/-- The formatted texts of the entries that a sequence of steps submits, in
the order of submission. -/
def submitted_texts (L : List Char) (k : Nat) : List AsyncStep → List (List Char)
  | [] => []
  | .submit entry newline :: steps => formatted L k entry newline :: submitted_texts L k steps
  | .pop :: steps => submitted_texts L k steps
  | .drain :: steps => submitted_texts L k steps

/-- A logger that is switched on, asynchronous, at depth 0, with a free mutex,
an empty queue and nothing written yet. -/
def async_log : Log :=
  ⟨true, true, false, 0, "    ".toList, [], false, 1, []⟩

/-- A logger that is switched off, with one entry pending in its queue. -/
def off_log : Log :=
  ⟨false, true, false, 3, "    ".toList, ["old\n".toList], false, 1, []⟩

/-- An asynchronous run: three entries are submitted, the worker pops once
after the first and drains the queue at the end. -/
def three_entries : List AsyncStep :=
  [AsyncStep.submit "e1".toList true, AsyncStep.pop, AsyncStep.submit "e2".toList true,
    AsyncStep.submit "e3".toList true, AsyncStep.drain]

/-- The variables of the loop of `Log::indent_entry` at a test of its
condition `i < entry.size()`. -/
structure ScanState where
  entry : List Char
  i : Nat
  insert : Bool
deriving DecidableEq, Repr

/-- One iteration of the loop of `Log::indent_entry` when no exception is
raised, from a state with `i < entry.size()`: the insertion block, the test of
`entry.at(i)` and the increment.  (Outside such a state nothing is done.) -/
def scan_step (indentation : List Char) (indent_amt : Nat) (s : ScanState) : ScanState :=
  let entry1 := if s.insert then insert_copies indentation s.i indent_amt s.entry else s.entry
  let insert1 := if s.insert then false else s.insert
  match entry1[s.i]? with
  | none => s
  | some c => ⟨entry1, s.i + 1, if c = '\n' ∧ s.i < entry1.length - 1 then true else insert1⟩

/-- The state after `n` iterations of the loop. -/
def scan_iter (indentation : List Char) (indent_amt : Nat) : Nat → ScanState → ScanState
  | 0, s => s
  | n + 1, s => scan_iter indentation indent_amt n (scan_step indentation indent_amt s)

/-- The operations of the logger facade that a caller issues: the submission
operations, `indent(amt)`, `turn_on` and `turn_off`. -/
inductive FacadeOp where
  | submit (op : Submission)
  | indent (amt : Nat)
  | turn_on
  | turn_off
deriving DecidableEq, Repr

/-- One operation of the facade, called under the faults `flt`. -/
def Log.perform (spacer : List Char) (default_newline : Bool) (flt : Faults) (st : Log) :
    FacadeOp → Option Log
  | .submit op => st.submit spacer default_newline flt op
  | .indent amt => some (st.indent_to amt)
  | .turn_on => some st.turn_on
  | .turn_off => some st.turn_off

/-- A sequence of operations of the facade, one after the other; `none` when
one of the calls does not return. -/
def Log.perform_all (spacer : List Char) (default_newline : Bool) (flt : Faults) (st : Log) :
    List FacadeOp → Option Log
  | [] => some st
  | op :: ops =>
    match st.perform spacer default_newline flt op with
    | none => none
    | some st1 => Log.perform_all spacer default_newline flt st1 ops

/-- The asynchronous counterpart of a synchronous state `ss`: the same fields
with one drain worker more, the texts `c` written and the texts `q` queued. -/
def Log.async_view (ss : Log) (c q : List (List Char)) : Log :=
  { ss with async := true, emptier := ss.emptier + 1, msgs := q, cout := c }

/-- The relation between the state `sa` of an asynchronous run and the state
`ss` of the synchronous run of the same operations: `ss` is synchronous with
an empty queue and a free mutex, and `sa` is its asynchronous counterpart in
which the texts written so far followed by the queue are the sink of `ss`. -/
def Log.sim (sa ss : Log) : Prop :=
  ss.async = false ∧ ss.msgs_mutex = false ∧ ss.msgs = []
    ∧ ∃ c q : List (List Char), c ++ q = ss.cout ∧ sa = ss.async_view c q

/-- The same for the results of two calls: both do not return, or both return
related states. -/
def Log.sim_opt : Option Log → Option Log → Prop
  | none, none => True
  | some sa, some ss => Log.sim sa ss
  | _, _ => False

/-- A sequence of operations that changes the depth between two entries. -/
def two_depths : List FacadeOp :=
  [FacadeOp.submit (Submission.enter "a".toList true), FacadeOp.indent 0,
    FacadeOp.submit (Submission.enter "b".toList true)]

/-- An event of an asynchronous run: the caller issues an operation of the
facade, or the drain worker executes the body of the loop of `empty_queue` once,
or the worker executes a whole `empty_queue`. -/
inductive AsyncEvent where
  | call (op : FacadeOp)
  | pop
  | drain
deriving DecidableEq, Repr

/-- One event of an asynchronous run; the calls of the caller are made under
the faults `flt`, the worker runs without faults. -/
def Log.event (spacer : List Char) (default_newline : Bool) (flt : Faults) (st : Log) :
    AsyncEvent → Option Log
  | .call op => st.perform spacer default_newline flt op
  | .pop => some st.write_front
  | .drain => st.empty_queue no_faults

/-- A sequence of events of an asynchronous run. -/
def Log.events (spacer : List Char) (default_newline : Bool) (flt : Faults) (st : Log) :
    List AsyncEvent → Option Log
  | [] => some st
  | ev :: evs =>
    match st.event spacer default_newline flt ev with
    | none => none
    | some st1 => Log.events spacer default_newline flt st1 evs

/-- The operations that the caller issues in a sequence of events, in order. -/
def caller_ops : List AsyncEvent → List FacadeOp
  | [] => []
  | .call op :: evs => op :: caller_ops evs
  | .pop :: evs => caller_ops evs
  | .drain :: evs => caller_ops evs

/-- The invariant of the loop of `populate_default` before the iteration of
index `i`: the chosen index is 0 or below `i`; once the chosen type is
`discrete_gpu`, the chosen device is a discrete GPU of the list with the chosen
memory, no discrete GPU below `i` has more memory and none before the chosen
index has as much; as long as it is not, no device below `i` is a discrete GPU. -/
def select_inv (devs : List PhysDevice) (i : Nat) (s : Selection) : Prop :=
  (s.ndx = 0 ∨ s.ndx < i)
  ∧ (s.type = VkPhysicalDeviceType.discrete_gpu →
      s.ndx < i ∧ devs[s.ndx]? = some ⟨VkPhysicalDeviceType.discrete_gpu, s.mem⟩
      ∧ (∀ j d, j < i → devs[j]? = some d → d.type = VkPhysicalDeviceType.discrete_gpu →
          d.mem ≤ s.mem)
      ∧ (∀ j d, j < s.ndx → devs[j]? = some d → d.type = VkPhysicalDeviceType.discrete_gpu →
          d.mem < s.mem))
  ∧ (s.type ≠ VkPhysicalDeviceType.discrete_gpu →
      ∀ j d, j < i → devs[j]? = some d → d.type ≠ VkPhysicalDeviceType.discrete_gpu)

/-- Three devices: an integrated GPU and two discrete GPUs with the same memory. -/
def three_devices : PhysDevices :=
  ⟨[⟨VkPhysicalDeviceType.integrated_gpu, 16⟩, ⟨VkPhysicalDeviceType.discrete_gpu, 8⟩,
    ⟨VkPhysicalDeviceType.discrete_gpu, 8⟩], 7⟩

/-! ## Theorems: entry formatter -/

theorem push_spaces_eq (n : Nat) (s : List Char) :
    push_spaces n s = s ++ List.replicate n ' ' := by
  induction n generalizing s with
  | zero => simp [push_spaces]
  | succ n ih =>
    rw [push_spaces, ih, List.append_assoc]
    rfl

theorem member_str_eq (spacer : List Char) (m : LoggableObjMember) (c : Nat) :
    m.str spacer c = member_text spacer m c := by
  unfold LoggableObjMember.str member_text
  simp only [List.length_append, push_spaces_eq, List.nil_append]
  by_cases h : c > m.name.length + spacer.length
  · simp only [h, if_true]
  · have h0 : c - (m.name.length + spacer.length) = 0 := by omega
    simp only [h, if_false, h0, List.replicate_zero]

theorem longest_name_len_eq (ms : List LoggableObjMember) (a : Nat) :
    longest_name_len ms a = max a (longest_name ms) := by
  induction ms generalizing a with
  | nil => simp [longest_name_len, longest_name]
  | cons m ms ih =>
    simp only [longest_name_len, ih]
    simp only [longest_name, List.map_cons, List.foldr_cons]
    split <;> omega

theorem longest_name_ge (ms : List LoggableObjMember) (m : LoggableObjMember)
    (h : m ∈ ms) : m.name.length ≤ longest_name ms := by
  induction ms with
  | nil => simp at h
  | cons a ms ih =>
    simp only [longest_name, List.map_cons, List.foldr_cons]
    rcases List.mem_cons.mp h with h | h
    · subst h; omega
    · have := ih h
      simp only [longest_name] at this
      omega

theorem longest_name_attained (ms : List LoggableObjMember) (h : ms ≠ []) :
    ∃ m ∈ ms, m.name.length = longest_name ms := by
  induction ms with
  | nil => exact absurd rfl h
  | cons a ms ih =>
    by_cases hms : ms = []
    · subst hms
      exact ⟨a, by simp, by simp [longest_name]⟩
    · obtain ⟨m, hm, hl⟩ := ih hms
      by_cases hc : a.name.length ≥ longest_name ms
      · refine ⟨a, by simp, ?_⟩
        simp only [longest_name, List.map_cons, List.foldr_cons]
        simp only [longest_name] at hc
        omega
      · refine ⟨m, by simp [hm], ?_⟩
        simp only [longest_name, List.map_cons, List.foldr_cons]
        simp only [longest_name] at hc hl
        omega



theorem drop_cons_facts {α : Type} (l : List α) (i : Nat) (a : α) (t : List α)
    (h : l.drop i = a :: t) :
    l[i]? = some a ∧ l.drop (i + 1) = t ∧ l.length = i + 1 + t.length := by
  have hlen : (l.drop i).length = t.length + 1 := by rw [h]; rfl
  rw [List.length_drop] at hlen
  have hi : i < l.length := by omega
  rw [List.drop_eq_getElem_cons hi] at h
  injection h with h1 h2
  refine ⟨?_, h2, by omega⟩
  rw [List.getElem?_eq_getElem hi, h1]

theorem str_interior_eq (spacer indent : List Char) (members : List LoggableObjMember)
    (c : Nat) (t : List LoggableObjMember) :
    ∀ (fuel i : Nat) (ss : List Char), members.drop i = t → t ≠ [] → t.length ≤ fuel + 1 →
      str_interior spacer indent members c fuel i ss
        = some (ss ++ (t.dropLast.map
            (fun m => indent ++ m.str spacer c ++ ",\n".toList)).flatten) := by
  induction t with
  | nil => intro _ _ _ _ h; exact absurd rfl h
  | cons a t ih =>
    intro fuel i ss hd _ hf
    obtain ⟨hget, hdrop, hlen⟩ := drop_cons_facts members i a t hd
    cases t with
    | nil =>
      have hc : ¬ i < members.length - 1 := by simp at hlen; omega
      cases fuel <;> simp [str_interior, hc]
    | cons b t =>
      have hc : i < members.length - 1 := by simp at hlen; omega
      cases fuel with
      | zero => simp at hf
      | succ fuel =>
        rw [str_interior]
        simp only [hc, if_true, hget]
        rw [ih fuel (i + 1) _ hdrop (by simp) (by simpa using hf)]
        simp [List.dropLast, List.append_assoc]

theorem interior_intercalate (sep0 indent : List Char) (r : LoggableObjMember → List Char)
    (t : List LoggableObjMember) (l : LoggableObjMember) (h : t.getLast? = some l) :
    (t.dropLast.map (fun m => indent ++ r m ++ sep0)).flatten ++ indent ++ r l
      = indent ++ (sep0 ++ indent).intercalate (t.map r) := by
  induction t with
  | nil => simp at h
  | cons a t ih =>
    cases t with
    | nil =>
      simp at h
      subst h
      simp [List.intercalate]
    | cons b t =>
      have h2 : (b :: t).getLast? = some l := by simpa [List.getLast?_cons_cons] using h
      have := ih h2
      simp only [List.dropLast_cons₂, List.map_cons, List.flatten_cons, List.append_assoc] at this ⊢
      rw [this]
      simp [List.intercalate, List.append_assoc]

theorem str_eq_spec (spacer : List Char) (obj : LoggableObj) (h : obj.members ≠ []) :
    obj.str spacer = some (str_spec spacer obj) := by
  obtain ⟨name, members⟩ := obj
  cases members with
  | nil => exact absurd rfl h
  | cons m0 rest =>
    unfold LoggableObj.str str_spec
    simp only [List.length_cons, Nat.add_one_ne_zero, if_false, List.getElem?_cons_zero,
      longest_name_len_eq, Nat.zero_max, push_spaces_eq, List.nil_append]
    cases rest with
    | nil => simp [List.intercalate]
    | cons m1 rest =>
      have hne : (m0 :: m1 :: rest).length ≠ 1 := by simp
      have hl : ∃ l, (m1 :: rest).getLast? = some l := by
        cases hh : (m1 :: rest).getLast? with
        | none => simp at hh
        | some l => exact ⟨l, rfl⟩
      obtain ⟨l, hl⟩ := hl
      have hl0 : (m0 :: m1 :: rest).getLast? = some l := by
        simpa [List.getLast?_cons_cons] using hl
      simp only [List.length_cons] at hne ⊢
      rw [str_interior_eq spacer _ (m0 :: m1 :: rest) _ (m1 :: rest) _ 1 _ rfl (by simp)
        (by simp)]
      simp only [hne, if_false, hl0]
      congr 1
      have := interior_intercalate ",\n".toList (List.replicate (name ++ " \x7b ".toList).length ' ')
        (fun m => m.str spacer (longest_name (m0 :: m1 :: rest) + spacer.length)) (m1 :: rest) l hl
      simp only [List.append_assoc] at this ⊢
      have key : ∀ (X I R J T : List Char), X ++ (I ++ R) = I ++ J →
          X ++ (I ++ (R ++ T)) = I ++ (J ++ T) := by
        intro X I R J T hx
        rw [← List.append_assoc I R T, ← List.append_assoc X, hx, List.append_assoc]
      rw [key _ _ _ _ _ this]
      simp [List.intercalate, member_sep, List.append_assoc]

theorem aligned_text_eq (spacer : List Char) (ms : List LoggableObjMember)
    (m : LoggableObjMember) :
    m.str spacer (longest_name ms + spacer.length) = aligned_text spacer (longest_name ms) m := by
  rw [member_str_eq]
  unfold member_text aligned_text
  congr 3
  omega

theorem dims_str (spacer : List Char) :
    dims.str spacer = some ("dims \x7b w".toList ++ spacer ++ "10,\n".toList
      ++ List.replicate 7 ' ' ++ "h".toList ++ spacer ++ "2000 \x7d\n".toList) := by
  rw [str_eq_spec spacer dims (by decide)]
  simp [str_spec, dims, member_sep, List.intercalate, member_str_eq, member_text,
    longest_name]

/-- C1: for an object with at least one member, `LoggableObj::str()` returns
`name + " { "`, then the members' renderings `m.str(longest + spacer.size())`
in insertion order, separated by `",\n"` and `name.size() + 3` spaces (as many
as the opening `name + " { "` has characters), then `" }\n"`; with one member
this is `name + " { " + r(m) + " }\n"`, without a comma. -/
theorem C1_str_layout (spacer : List Char) (obj : LoggableObj) (h : obj.members ≠ []) :
    obj.str spacer = some (obj.name ++ " \x7b ".toList
        ++ (",\n".toList ++ List.replicate (obj.name.length + 3) ' ').intercalate
            (obj.members.map
              (fun m => m.str spacer (longest_name obj.members + spacer.length)))
        ++ " \x7d\n".toList)
    ∧ (obj.name ++ " \x7b ".toList).length = obj.name.length + 3
    ∧ (∀ m, obj.members = [m] →
        obj.str spacer = some (obj.name ++ " \x7b ".toList
          ++ m.str spacer (m.name.length + spacer.length) ++ " \x7d\n".toList)) := by
  refine ⟨str_eq_spec spacer obj h, by simp, ?_⟩
  intro m hm
  rw [str_eq_spec spacer obj h]
  simp [str_spec, hm, List.intercalate, longest_name]

/-- C1, at the object `dims` with a spacer of two blanks. -/
theorem C1_str_layout_witness :
    dims.members ≠ [] ∧
      dims.str "  ".toList = some "dims \x7b w  10,\n       h  2000 \x7d\n".toList := by
  refine ⟨by decide, ?_⟩
  rw [(C1_str_layout "  ".toList dims (by decide)).1]
  decide

/-- C2: inside its object a member is rendered as its name, the spacer,
`longest - name.size()` spaces and its value, where `longest` is the largest
member-name length of the object (an upper bound of all of them that one member
attains); the value therefore starts `longest + spacer.size()` characters after
the start of the name.  In general `LoggableObjMember::str(c)` pads with
`max(0, c - (name.size() + spacer.size()))` spaces. -/
theorem C2_member_alignment (spacer : List Char) (obj : LoggableObj)
    (h : obj.members ≠ []) :
    obj.str spacer = some (obj.name ++ " \x7b ".toList
        ++ (",\n".toList ++ List.replicate (obj.name.length + 3) ' ').intercalate
            (obj.members.map (fun m =>
              m.name ++ spacer
                ++ List.replicate (longest_name obj.members - m.name.length) ' ' ++ m.value))
        ++ " \x7d\n".toList)
    ∧ (∀ m ∈ obj.members,
        m.name.length ≤ longest_name obj.members
        ∧ (m.name ++ spacer
            ++ List.replicate (longest_name obj.members - m.name.length) ' ').length
            = longest_name obj.members + spacer.length)
    ∧ (∃ m ∈ obj.members, m.name.length = longest_name obj.members)
    ∧ longest_name_len obj.members 0 = longest_name obj.members
    ∧ (∀ (m : LoggableObjMember) (c : Nat),
        m.str spacer c = m.name ++ spacer
          ++ List.replicate
              (max 0 ((c : Int) - ((m.name.length : Int) + (spacer.length : Int)))).toNat ' '
          ++ m.value) := by
  refine ⟨?_, ?_, longest_name_attained obj.members h, ?_, ?_⟩
  · rw [str_eq_spec spacer obj h]
    simp only [str_spec, member_sep, aligned_text_eq]
    rfl
  · intro m hm
    have := longest_name_ge obj.members m hm
    refine ⟨this, ?_⟩
    simp only [List.length_append, List.length_replicate]
    omega
  · rw [longest_name_len_eq]; omega
  · intro m c
    rw [member_str_eq]
    unfold member_text
    congr 3
    omega

/-- C2, at the object `dims` with a spacer of two blanks. -/
theorem C2_member_alignment_witness :
    dims.members ≠ [] ∧ ∃ m ∈ dims.members, m.name.length = longest_name dims.members :=
  ⟨by decide, (C2_member_alignment "  ".toList dims (by decide)).2.2.1⟩

/-- C3 as stated does not hold: whatever the spacer is, `dims` is not rendered
as the text of the claim, whose second line starts with eight spaces. -/
theorem C3_eight_spaces_counterexample :
    ¬ ∃ spacer : List Char,
        dims.str spacer = some "dims \x7b w      10,\n        h      2000 \x7d\n".toList := by
  rintro ⟨spacer, hs⟩
  rw [dims_str] at hs
  have hlen := congrArg (fun o => o.map List.length) hs
  simp at hlen
  omega

/-- C3, amended: `dims` is rendered as `"dims { w" + spacer + "10,\n"`, seven
spaces (the length of `"dims { "`), `"h" + spacer + "2000 }\n"`; with a spacer of
six blanks this is `"dims { w      10,\n       h      2000 }\n"`. -/
theorem C3_dims_render :
    (∀ spacer : List Char,
        dims.str spacer = some ("dims \x7b w".toList ++ spacer ++ "10,\n".toList
          ++ List.replicate 7 ' ' ++ "h".toList ++ spacer ++ "2000 \x7d\n".toList))
    ∧ ("dims \x7b ".toList).length = 7
    ∧ dims.str "      ".toList
        = some "dims \x7b w      10,\n       h      2000 \x7d\n".toList := by
  refine ⟨dims_str, by decide, ?_⟩
  rw [dims_str]
  decide

/-! ## Theorems: the indentation scan -/

theorem copies_zero (L : List Char) : copies L 0 = [] := rfl

theorem copies_succ (L : List Char) (k : Nat) : copies L (k + 1) = L ++ copies L k := rfl

theorem copies_succ_right (L : List Char) (k : Nat) : copies L (k + 1) = copies L k ++ L := by
  induction k with
  | zero => simp [copies]
  | succ k ih =>
    rw [copies_succ L (k + 1), ih, ← List.append_assoc, ← copies_succ, ih]

theorem copies_length (L : List Char) (k : Nat) : (copies L k).length = k * L.length := by
  induction k with
  | zero => simp [copies]
  | succ k ih => rw [copies_succ, List.length_append, ih]; ring

theorem copies_no_newline (L : List Char) (k : Nat) (hL : '\n' ∉ L) : '\n' ∉ copies L k := by
  induction k with
  | zero => simp [copies]
  | succ k ih => rw [copies_succ]; simp [hL, ih]

theorem insert_at_append (A B s : List Char) : insert_at (A ++ B) A.length s = A ++ s ++ B := by
  simp [insert_at]

theorem insert_copies_append (L A : List Char) (n : Nat) (B : List Char) :
    insert_copies L A.length n (A ++ B) = A ++ copies L n ++ B := by
  induction n generalizing B with
  | zero => simp [insert_copies, copies]
  | succ n ih =>
    rw [insert_copies, insert_at_append, List.append_assoc, ih, copies_succ_right]
    simp [List.append_assoc]

theorem indent_after_newlines_zero (L e : List Char) : indent_after_newlines L 0 e = e := by
  induction e with
  | nil => rfl
  | cons c rest ih => simp [indent_after_newlines, ih, copies]

theorem indent_after_newlines_length (L : List Char) (k : Nat) (e : List Char) :
    (indent_after_newlines L k e).length = e.length + internal_newlines e * (k * L.length) := by
  induction e with
  | nil => simp [indent_after_newlines, internal_newlines]
  | cons c rest ih =>
    simp only [indent_after_newlines, internal_newlines]
    split
    · simp only [List.length_cons, List.length_append, ih, copies_length]; ring
    · simp only [List.length_cons, ih]; ring

theorem internal_newlines_lt (e : List Char) (he : e ≠ []) : internal_newlines e < e.length := by
  induction e with
  | nil => exact absurd rfl he
  | cons c rest ih =>
    simp only [internal_newlines, List.length_cons]
    by_cases hr : rest = []
    · subst hr; simp [internal_newlines]
    · have := ih hr
      split <;> omega

theorem indent_scan_erase (thr : Bool) (L : List Char) (k : Nat) :
    ∀ (fuel : Nat) (entry : List Char) (i : Nat) (ins : Bool) (cnt : Nat),
      indent_scan thr L k fuel entry i ins
        = (indent_scan_count thr L k fuel entry i ins cnt).map (fun r => (r.1, r.2.1)) := by
  intro fuel
  induction fuel with
  | zero => intros; rfl
  | succ fuel ih =>
    intro entry i ins cnt
    rw [indent_scan, indent_scan_count]
    split
    · split
      · rfl
      · simp only
        split
        · rfl
        · exact ih _ _ _ _
    · rfl

theorem scan_count_step (L : List Char) (k : Nat) (fuel : Nat) (entry : List Char)
    (i : Nat) (cnt : Nat) (c : Char) (hget : entry[i]? = some c) :
    indent_scan_count false L k (fuel + 1) entry i false cnt
      = indent_scan_count false L k fuel entry (i + 1)
          (if c = '\n' ∧ i < entry.length - 1 then true else false) cnt := by
  have hi : i < entry.length := by
    by_contra hc
    rw [List.getElem?_eq_none (by omega)] at hget
    exact absurd hget (by simp)
  rw [indent_scan_count]
  simp only [hi, if_true, Bool.false_and, Bool.false_eq_true, if_false, hget]

theorem scan_count_insert (L : List Char) (k : Nat) (fuel : Nat) (entry : List Char)
    (i : Nat) (cnt : Nat) (hi : i < entry.length)
    (hlen : entry.length ≤ (insert_copies L i k entry).length) :
    indent_scan_count false L k (fuel + 1) entry i true cnt
      = indent_scan_count false L k (fuel + 1) (insert_copies L i k entry) i false (cnt + 1) := by
  have hi2 : i < (insert_copies L i k entry).length := by omega
  rw [indent_scan_count, indent_scan_count]
  simp only [hi, hi2, if_true, Bool.true_and, Bool.false_and, Bool.false_eq_true, if_false]

theorem getElem?_mid (A : List Char) (w : Char) (R : List Char) :
    (A ++ w :: R)[A.length]? = some w := by
  rw [List.getElem?_append_right (Nat.le_refl _)]
  simp

theorem scan_count_walk (L : List Char) (k : Nat) (W : List Char) (hW : '\n' ∉ W) :
    ∀ (fuel : Nat) (A R : List Char) (cnt : Nat),
      indent_scan_count false L k (W.length + fuel) (A ++ W ++ R) A.length false cnt
        = indent_scan_count false L k fuel (A ++ W ++ R) (A.length + W.length) false cnt := by
  induction W with
  | nil => intro fuel A R cnt; simp
  | cons w W ih =>
    intro fuel A R cnt
    have hw : w ≠ '\n' := fun h => hW (by simp [h])
    have hW1 : '\n' ∉ W := fun h => hW (by simp [h])
    have e1 : A ++ (w :: W) ++ R = A ++ w :: (W ++ R) := by simp
    have e2 : A ++ [w] ++ W ++ R = A ++ w :: (W ++ R) := by simp
    have h2 := ih hW1 fuel (A ++ [w]) R cnt
    rw [e2, List.length_append, List.length_singleton] at h2
    rw [e1, show (w :: W).length + fuel = (W.length + fuel) + 1 by simp; omega,
      scan_count_step L k _ _ _ _ w (getElem?_mid A w (W ++ R))]
    simp only [hw, false_and, if_false]
    rw [h2, List.length_cons]
    congr 1
    omega



theorem indent_after_newlines_inner (L : List Char) (k : Nat) (c : Char) (R : List Char)
    (hc : c = '\n' ∧ R ≠ []) :
    indent_after_newlines L k (c :: R) = c :: (copies L k ++ indent_after_newlines L k R) := by
  rw [indent_after_newlines, if_pos hc]

theorem indent_after_newlines_other (L : List Char) (k : Nat) (c : Char) (R : List Char)
    (hc : ¬ (c = '\n' ∧ R ≠ [])) :
    indent_after_newlines L k (c :: R) = c :: indent_after_newlines L k R := by
  rw [indent_after_newlines, if_neg hc]

theorem internal_newlines_inner (c : Char) (R : List Char) (hc : c = '\n' ∧ R ≠ []) :
    internal_newlines (c :: R) = 1 + internal_newlines R := by
  rw [internal_newlines, if_pos hc]

theorem internal_newlines_other (c : Char) (R : List Char) (hc : ¬ (c = '\n' ∧ R ≠ [])) :
    internal_newlines (c :: R) = internal_newlines R := by
  rw [internal_newlines, if_neg hc, Nat.zero_add]

theorem scan_count_rest (L : List Char) (k : Nat) (hL : '\n' ∉ L) (R : List Char) :
    ∀ (fuel : Nat) (A : List Char) (cnt : Nat),
      (indent_after_newlines L k R).length + 1 ≤ fuel →
      indent_scan_count false L k fuel (A ++ R) A.length false cnt
        = some (true, A ++ indent_after_newlines L k R, cnt + internal_newlines R) := by
  induction R with
  | nil =>
    intro fuel A cnt hf
    obtain ⟨f, rfl⟩ : ∃ f, fuel = f + 1 := ⟨fuel - 1, by omega⟩
    rw [indent_scan_count]
    simp [indent_after_newlines, internal_newlines]
  | cons c R ih =>
    intro fuel A cnt hf
    obtain ⟨f, rfl⟩ : ∃ f, fuel = f + 1 := ⟨fuel - 1, by omega⟩
    rw [scan_count_step L k f _ _ _ c (getElem?_mid A c R)]
    have hlen1 : A.length < (A ++ c :: R).length - 1 ↔ R ≠ [] := by
      cases R <;> simp
    have e1 : A ++ c :: R = (A ++ [c]) ++ R := by simp
    have e2 : A.length + 1 = (A ++ [c]).length := by simp
    by_cases hc : c = '\n' ∧ R ≠ []
    · have hcond : c = '\n' ∧ A.length < (A ++ c :: R).length - 1 := ⟨hc.1, hlen1.mpr hc.2⟩
      have hR : 0 < R.length := List.length_pos.mpr hc.2
      rw [if_pos hcond]
      rw [indent_after_newlines_inner L k c R hc, List.length_cons, List.length_append] at hf
      obtain ⟨g, rfl⟩ : ∃ g, f = (copies L k).length + (g + 1) :=
        ⟨f - (copies L k).length - 1, by omega⟩
      rw [e1, e2, ← Nat.add_assoc,
        scan_count_insert L k _ _ _ _ (by simp only [List.length_append]; omega)
          (by rw [insert_copies_append]; simp),
        insert_copies_append, Nat.add_assoc,
        scan_count_walk L k (copies L k) (copies_no_newline L k hL) (g + 1) (A ++ [c]) R (cnt + 1),
        ← List.length_append,
        ih (g + 1) (A ++ [c] ++ copies L k) (cnt + 1) (by omega),
        indent_after_newlines_inner L k c R hc, internal_newlines_inner c R hc]
      simp only [List.append_assoc, List.singleton_append]
      congr 3
      omega
    · have hcond : ¬ (c = '\n' ∧ A.length < (A ++ c :: R).length - 1) :=
        fun h => hc ⟨h.1, hlen1.mp h.2⟩
      rw [if_neg hcond]
      rw [indent_after_newlines_other L k c R hc, List.length_cons] at hf
      rw [e1, e2, ih f (A ++ [c]) cnt (by omega),
        indent_after_newlines_other L k c R hc, internal_newlines_other c R hc]
      simp only [List.append_assoc, List.singleton_append]

theorem scan_count_top (L : List Char) (k : Nat) (hL : '\n' ∉ L) (e : List Char)
    (he : e ≠ []) (fuel : Nat) (hf : (indent_spec L k e).length + 1 ≤ fuel) :
    indent_scan_count false L k fuel e 0 true 0
      = some (true, indent_spec L k e, internal_newlines e + 1) := by
  have hpos : 0 < e.length := List.length_pos.mpr he
  simp only [indent_spec, List.length_append] at hf
  obtain ⟨g, rfl⟩ : ∃ g, fuel = (copies L k).length + (g + 1) :=
    ⟨fuel - (copies L k).length - 1, by omega⟩
  have h0 := insert_copies_append L [] k e
  simp only [List.length_nil, List.nil_append] at h0
  rw [← Nat.add_assoc, scan_count_insert L k _ e 0 0 hpos (by rw [h0]; simp), h0, Nat.add_assoc]
  have hw := scan_count_walk L k (copies L k) (copies_no_newline L k hL) (g + 1) [] e (0 + 1)
  simp only [List.nil_append, List.length_nil, Nat.zero_add] at hw
  rw [hw]
  have hr := scan_count_rest L k hL e (g + 1) (copies L k) 1 (by omega)
  rw [hr, indent_spec]
  congr 3
  omega

theorem indent_spec_length (L : List Char) (k : Nat) (e : List Char) :
    (indent_spec L k e).length = e.length + (internal_newlines e + 1) * (k * L.length) := by
  rw [indent_spec, List.length_append, copies_length, indent_after_newlines_length]
  ring

theorem scan_bound_enough (L : List Char) (k : Nat) (e : List Char) (he : e ≠ []) :
    (indent_spec L k e).length + 1 ≤ scan_bound L k e := by
  rw [indent_spec_length, scan_bound]
  have h1 : internal_newlines e + 1 ≤ e.length := internal_newlines_lt e he
  have h2 := Nat.mul_le_mul_right (k * L.length) h1
  omega

theorem indent_spec_zero (L e : List Char) : indent_spec L 0 e = e := by
  simp [indent_spec, copies, indent_after_newlines_zero]

theorem indent_entry_eq (st : Log) (e : List Char) (he : e ≠ [])
    (hL : '\n' ∉ st.indentation) :
    st.indent_entry no_faults e = some (true, indent_spec st.indentation st.indent_amt e) := by
  unfold Log.indent_entry
  by_cases hk : st.indent_amt > 0
  · rw [if_pos hk, indent_scan_erase _ _ _ _ _ _ _ 0]
    have : no_faults.insert = false := rfl
    rw [this, scan_count_top _ _ hL e he _ (scan_bound_enough _ _ e he)]
    rfl
  · have h0 : st.indent_amt = 0 := by omega
    rw [if_neg hk, h0, indent_spec_zero]

theorem indent_entry_nil (flt : Faults) (st : Log) :
    st.indent_entry flt [] = some (true, []) := by
  unfold Log.indent_entry
  split
  · simp [scan_bound, indent_scan]
  · rfl

theorem indent_after_newlines_prefix (L : List Char) (k : Nat) (a R : List Char)
    (ha : '\n' ∉ a) :
    indent_after_newlines L k (a ++ R) = a ++ indent_after_newlines L k R := by
  induction a with
  | nil => rfl
  | cons c a ih =>
    have hc : ¬ (c = '\n' ∧ a ++ R ≠ []) := fun h => ha (by simp [h.1])
    have ha1 : '\n' ∉ a := fun h => ha (by simp [h])
    rw [List.cons_append, indent_after_newlines_other L k c _ hc, ih ha1, List.cons_append]

theorem indent_after_newlines_sublist (L : List Char) (k : Nat) (e : List Char) :
    e.Sublist (indent_after_newlines L k e) := by
  induction e with
  | nil => simp [indent_after_newlines]
  | cons c R ih =>
    rw [indent_after_newlines]
    split
    · exact (ih.trans (List.sublist_append_right _ _)).cons₂ c
    · exact ih.cons₂ c

theorem getLast?_append_cons (X : List Char) (d : Char) (Y : List Char) :
    (X ++ d :: Y).getLast? = (d :: Y).getLast? := by
  rw [List.getLast?_append]
  cases h : (d :: Y).getLast? with
  | none => simp at h
  | some v => rfl

theorem indent_after_newlines_getLast (L : List Char) (k : Nat) (e : List Char) :
    (indent_after_newlines L k e).getLast? = e.getLast? := by
  induction e with
  | nil => simp [indent_after_newlines]
  | cons c R ih =>
    cases R with
    | nil => simp [indent_after_newlines]
    | cons d R =>
      have hne : indent_after_newlines L k (d :: R) ≠ [] := by
        rw [indent_after_newlines]; split <;> simp
      obtain ⟨x, xs, hx⟩ := List.exists_cons_of_ne_nil hne
      rw [List.getLast?_cons_cons, ← ih, hx, indent_after_newlines]
      split
      · rw [hx, ← List.cons_append, getLast?_append_cons]
      · rw [hx, List.getLast?_cons_cons]

theorem internal_newlines_eq_count (e : List Char) :
    internal_newlines e = e.dropLast.count '\n' := by
  induction e with
  | nil => rfl
  | cons c R ih =>
    cases R with
    | nil => simp [internal_newlines]
    | cons d R =>
      rw [internal_newlines, ih, List.dropLast_cons₂, List.count_cons]
      by_cases hc : c = '\n'
      · subst hc; simp; omega
      · have : ¬ (c == '\n') = true := by simpa using hc
        simp [hc]

theorem insert_copies_length (L : List Char) (i n : Nat) (entry : List Char) :
    (insert_copies L i n entry).length = entry.length + n * L.length := by
  induction n generalizing entry with
  | zero => simp [insert_copies]
  | succ n ih =>
    rw [insert_copies, ih]
    have : (insert_at entry i L).length = entry.length + L.length := by
      have h := congrArg List.length (List.take_append_drop i entry)
      simp only [insert_at, List.length_append] at h ⊢
      omega
    rw [this]; ring

/-- C4: for a non-empty entry and an indentation literal without a newline,
`Log::indent_entry` returns `true` and leaves the entry equal to the reference
result: `indent_amt` copies of the literal at position 0 and right after every
newline that is not the last character, the original characters kept in order.
The scan gives this result for every iteration bound above the length of the
result.  A first line without a newline is indented once, a final newline is
followed by nothing, and the text after a newline is indented the same way. -/
theorem C4_indent_entry_reference (st : Log) (e : List Char) (he : e ≠ [])
    (hL : '\n' ∉ st.indentation) :
    st.indent_entry no_faults e = some (true, indent_spec st.indentation st.indent_amt e)
    ∧ (∀ fuel : Nat, 0 < st.indent_amt →
        (indent_spec st.indentation st.indent_amt e).length + 1 ≤ fuel →
        indent_scan false st.indentation st.indent_amt fuel e 0 true
          = some (true, indent_spec st.indentation st.indent_amt e))
    ∧ e.Sublist (indent_spec st.indentation st.indent_amt e)
    ∧ (indent_spec st.indentation st.indent_amt e).getLast? = e.getLast?
    ∧ (∀ a : List Char, '\n' ∉ a →
        indent_spec st.indentation st.indent_amt a
          = copies st.indentation st.indent_amt ++ a)
    ∧ (∀ a : List Char, '\n' ∉ a →
        indent_spec st.indentation st.indent_amt (a ++ ['\n'])
          = copies st.indentation st.indent_amt ++ a ++ ['\n'])
    ∧ (∀ a b : List Char, '\n' ∉ a → b ≠ [] →
        indent_spec st.indentation st.indent_amt (a ++ '\n' :: b)
          = copies st.indentation st.indent_amt ++ a
              ++ '\n' :: indent_spec st.indentation st.indent_amt b) := by
  refine ⟨indent_entry_eq st e he hL, ?_, ?_, ?_, ?_, ?_, ?_⟩
  · intro fuel _ hf
    rw [indent_scan_erase _ _ _ _ _ _ _ 0, scan_count_top _ _ hL e he fuel hf]
    rfl
  · exact (indent_after_newlines_sublist _ _ e).trans (List.sublist_append_right _ _)
  · obtain ⟨x, xs, rfl⟩ := List.exists_cons_of_ne_nil he
    have hne : indent_after_newlines st.indentation st.indent_amt (x :: xs) ≠ [] := by
      rw [indent_after_newlines]; split <;> simp
    obtain ⟨y, ys, hy⟩ := List.exists_cons_of_ne_nil hne
    rw [indent_spec, hy, getLast?_append_cons, ← hy, indent_after_newlines_getLast]
  · intro a ha
    have := indent_after_newlines_prefix st.indentation st.indent_amt a [] ha
    simp only [List.append_nil] at this
    rw [indent_spec, this]
    simp [indent_after_newlines]
  · intro a ha
    rw [indent_spec, indent_after_newlines_prefix _ _ a _ ha]
    simp [indent_after_newlines]
  · intro a b ha hb
    rw [indent_spec, indent_after_newlines_prefix _ _ a _ ha,
      indent_after_newlines_inner _ _ '\n' b ⟨rfl, hb⟩, indent_spec]
    simp

/-- C4, at depth 2 with the literal `"--"` and the entry `"a\nb\n"`. -/
theorem C4_indent_entry_reference_witness :
    sample_log.indent_entry no_faults "a\nb\n".toList = some (true, "----a\n----b\n".toList) := by
  rw [(C4_indent_entry_reference sample_log "a\nb\n".toList (by decide) (by decide)).1]
  decide

theorem indent_entry_count_erase (flt : Faults) (st : Log) (entry : List Char) :
    st.indent_entry flt entry
      = (st.indent_entry_count flt entry).map (fun r => (r.1, r.2.1)) := by
  unfold Log.indent_entry Log.indent_entry_count
  split
  · exact indent_scan_erase _ _ _ _ _ _ _ 0
  · rfl

theorem indent_entry_count_eq (st : Log) (e : List Char) (he : e ≠ [])
    (hL : '\n' ∉ st.indentation) :
    st.indent_entry_count no_faults e
      = some (true, indent_spec st.indentation st.indent_amt e,
          if 0 < st.indent_amt then internal_newlines e + 1 else 0) := by
  unfold Log.indent_entry_count
  by_cases hk : st.indent_amt > 0
  · have : no_faults.insert = false := rfl
    rw [if_pos hk, if_pos hk, this, scan_count_top _ _ hL e he _ (scan_bound_enough _ _ e he)]
  · have h0 : st.indent_amt = 0 := by omega
    rw [if_neg hk, if_neg hk, h0, indent_spec_zero]

/-- C5: on a non-empty entry with `m` internal newlines (the newlines of the
entry without its last character), `Log::indent_entry` executes its insertion
block `m + 1` times when `indent_amt ≥ 1`, each execution inserting `indent_amt`
copies of the literal; at every depth, 0 included, it calls `entry.insert`
`(m + 1) * indent_amt` times in all and leaves an entry that is
`(m + 1) * indent_amt * size(literal)` characters longer than the original
(literal without a newline). -/
theorem C5_insertion_count (st : Log) (e : List Char) (he : e ≠ [])
    (hL : '\n' ∉ st.indentation) :
    (∃ (r : List Char) (blocks : Nat),
        st.indent_entry_count no_faults e = some (true, r, blocks)
        ∧ st.indent_entry no_faults e = some (true, r)
        ∧ (0 < st.indent_amt → blocks = e.dropLast.count '\n' + 1)
        ∧ blocks * st.indent_amt = (e.dropLast.count '\n' + 1) * st.indent_amt
        ∧ r.length
            = e.length + (e.dropLast.count '\n' + 1) * st.indent_amt * st.indentation.length)
    ∧ (∀ (flt : Faults) (entry : List Char),
        st.indent_entry flt entry
          = (st.indent_entry_count flt entry).map (fun r => (r.1, r.2.1)))
    ∧ (∀ (i : Nat) (entry : List Char),
        (insert_copies st.indentation i st.indent_amt entry).length
          = entry.length + st.indent_amt * st.indentation.length) := by
  refine ⟨⟨_, _, indent_entry_count_eq st e he hL, indent_entry_eq st e he hL, ?_, ?_, ?_⟩,
    fun flt entry => indent_entry_count_erase flt st entry,
    fun i entry => insert_copies_length _ _ _ _⟩
  · intro hk
    rw [if_pos hk, internal_newlines_eq_count]
  · by_cases hk : 0 < st.indent_amt
    · rw [if_pos hk, internal_newlines_eq_count]
    · have h0 : st.indent_amt = 0 := by omega
      rw [h0, Nat.mul_zero, Nat.mul_zero]
  · rw [indent_spec_length, internal_newlines_eq_count]
    ring

/-- C5, at depth 2 with the literal `"--"` and the entry `"a\nb\n"`, which has
one internal newline: two executions of the insertion block, four calls of
`entry.insert`, eight more characters. -/
theorem C5_insertion_count_witness :
    sample_log.indent_entry_count no_faults "a\nb\n".toList
        = some (true, "----a\n----b\n".toList, 2)
    ∧ ∃ (r : List Char) (blocks : Nat),
        sample_log.indent_entry_count no_faults "a\nb\n".toList = some (true, r, blocks)
        ∧ sample_log.indent_entry no_faults "a\nb\n".toList = some (true, r)
        ∧ (0 < sample_log.indent_amt → blocks = "a\nb\n".toList.dropLast.count '\n' + 1)
        ∧ blocks * sample_log.indent_amt
            = ("a\nb\n".toList.dropLast.count '\n' + 1) * sample_log.indent_amt
        ∧ r.length = "a\nb\n".toList.length
            + ("a\nb\n".toList.dropLast.count '\n' + 1) * sample_log.indent_amt
              * sample_log.indentation.length :=
  ⟨by decide, (C5_insertion_count sample_log "a\nb\n".toList (by decide) (by decide)).1⟩

/-! ## Theorems: the logger facade -/

theorem indent_entry_eq_gen (st : Log) (e : List Char) (he : e ≠ [])
    (hL : st.indent_amt = 0 ∨ '\n' ∉ st.indentation) :
    st.indent_entry no_faults e = some (true, indent_spec st.indentation st.indent_amt e) := by
  rcases hL with h0 | hL
  · unfold Log.indent_entry
    rw [if_neg (by omega), h0, indent_spec_zero]
  · exact indent_entry_eq st e he hL

theorem format_entry_eq (st : Log) (e : List Char) (newline : Bool) (he : e ≠ [])
    (hL : st.indent_amt = 0 ∨ '\n' ∉ st.indentation) :
    st.format_entry no_faults e newline
      = some (true, formatted st.indentation st.indent_amt e newline) := by
  unfold Log.format_entry
  rw [indent_entry_eq_gen st e he hL]
  cases newline <;> simp [append_newline, formatted, no_faults]

theorem enter_sync_eq (st : Log) (e : List Char) (newline : Bool) (he : e ≠ [])
    (hL : st.indent_amt = 0 ∨ '\n' ∉ st.indentation) :
    st.enter_sync no_faults e newline
      = some { st with cout := st.cout ++ [formatted st.indentation st.indent_amt e newline] } := by
  unfold Log.enter_sync
  rw [format_entry_eq st e newline he hL]
  rfl

theorem enter_async_eq (st : Log) (e : List Char) (newline : Bool) (he : e ≠ [])
    (hL : st.indent_amt = 0 ∨ '\n' ∉ st.indentation) (hm : st.msgs_mutex = false) :
    st.enter_async no_faults e newline
      = some { st with msgs := st.msgs ++ [formatted st.indentation st.indent_amt e newline] } := by
  obtain ⟨o, async, stopped, k, L, msgs, mtx, emp, cout⟩ := st
  simp only at hL hm
  subst hm
  have h1 := format_entry_eq ⟨o, async, stopped, k, L, msgs, true, emp, cout⟩ e newline he hL
  simp only [Log.enter_async, no_faults, Bool.false_eq_true, if_false] at h1 ⊢
  rw [h1]

theorem enter_eq (st : Log) (e : List Char) (newline : Bool) (hon : st.is_on = true)
    (he : e ≠ []) (hL : st.indent_amt = 0 ∨ '\n' ∉ st.indentation)
    (hm : st.async = true → st.msgs_mutex = false) :
    st.enter no_faults e newline
      = some (st.emit (formatted st.indentation st.indent_amt e newline)) := by
  have hne : e.isEmpty = false := by cases e <;> simp at he ⊢
  obtain ⟨o, async, stopped, k, L, msgs, mtx, emp, cout⟩ := st
  simp only at hon hL hm
  subst hon
  cases async with
  | true =>
    have h2 := enter_async_eq ⟨true, true, stopped, k, L, msgs, mtx, emp, cout⟩ e newline he hL
      (hm rfl)
    simp only [Log.enter, Log.emit, hne, Bool.not_false, Bool.and_self, if_true]
    exact h2
  | false =>
    have h1 := enter_sync_eq ⟨true, false, stopped, k, L, msgs, mtx, emp, cout⟩ e newline he hL
    simp only [Log.enter, Log.emit, hne, Bool.not_false, Bool.and_self, if_true,
      Bool.false_eq_true, if_false]
    exact h1

theorem enter_off (flt : Faults) (st : Log) (e : List Char) (newline : Bool)
    (hoff : st.is_on = false) : st.enter flt e newline = some st := by
  simp [Log.enter, hoff]

theorem enter_nil (flt : Faults) (st : Log) (newline : Bool) :
    st.enter flt [] newline = some st := by
  simp [Log.enter]

theorem drain_eq (n : Nat) (st : Log) (hn : st.msgs.length ≤ n) :
    Log.drain n st = { st with cout := st.cout ++ st.msgs, msgs := [] } := by
  induction n generalizing st with
  | zero =>
    have : st.msgs = [] := List.length_eq_zero.mp (by omega)
    cases st
    simp_all [Log.drain]
  | succ n ih =>
    obtain ⟨a, b, c, d, e, msgs, g, h, cout⟩ := st
    cases msgs with
    | nil => simp [Log.drain]
    | cons m ms =>
      simp only [List.length_cons] at hn
      rw [Log.drain]
      simp only [List.isEmpty_cons, Bool.false_eq_true, if_false, Log.write_front,
        Log.write_entry]
      rw [ih _ (by simp only; omega)]
      simp

theorem empty_queue_eq (st : Log) (hm : st.msgs_mutex = false) :
    st.empty_queue no_faults = some { st with cout := st.cout ++ st.msgs, msgs := [] } := by
  obtain ⟨o, async, stopped, k, L, msgs, mtx, emp, cout⟩ := st
  simp only at hm
  subst hm
  have hd := drain_eq msgs.length ⟨o, async, stopped, k, L, msgs, true, emp, cout⟩
    (Nat.le_refl _)
  simp only [Log.empty_queue, no_faults, Bool.false_eq_true, if_false]
  rw [hd]

theorem split_at_newline (X : List Char) :
    ∀ (X1 Y Y1 : List Char), '\n' ∉ X → '\n' ∉ X1 → X ++ '\n' :: Y = X1 ++ '\n' :: Y1 →
      X = X1 ∧ Y = Y1 := by
  induction X with
  | nil =>
    intro X1 Y Y1 _ h1 h
    cases X1 with
    | nil => simpa using h
    | cons x X1 =>
      simp only [List.nil_append, List.cons_append, List.cons.injEq] at h
      exact absurd (by rw [← h.1]; simp) h1
  | cons a X ih =>
    intro X1 Y Y1 h0 h1 h
    cases X1 with
    | nil =>
      simp only [List.nil_append, List.cons_append, List.cons.injEq] at h
      exact absurd (by rw [h.1]; simp) h0
    | cons x X1 =>
      simp only [List.cons_append, List.cons.injEq] at h
      have := ih X1 Y Y1 (fun hh => h0 (by simp [hh])) (fun hh => h1 (by simp [hh])) h.2
      exact ⟨by rw [h.1, this.1], this.2⟩

theorem formatted_sublist (L : List Char) (k : Nat) (s : List Char) (newline : Bool) :
    s.Sublist (formatted L k s newline) :=
  ((indent_after_newlines_sublist L k s).trans (List.sublist_append_right _ _)).trans
    (List.sublist_append_left _ _)

theorem indent_after_newlines_id (L : List Char) (k : Nat) (s : List Char)
    (h : internal_newlines s = 0) : indent_after_newlines L k s = s := by
  induction s with
  | nil => rfl
  | cons c R ih =>
    rw [internal_newlines] at h
    have hc : ¬ (c = '\n' ∧ R ≠ []) := by
      intro hc; rw [if_pos hc] at h; omega
    rw [if_neg hc, Nat.zero_add] at h
    rw [indent_after_newlines_other L k c R hc, ih h]

theorem formatted_infix (L : List Char) (k : Nat) (s : List Char) (newline : Bool)
    (h : k = 0 ∨ s.dropLast.count '\n' = 0) : s <:+: formatted L k s newline := by
  have key : indent_after_newlines L k s = s := by
    rcases h with h | h
    · rw [h, indent_after_newlines_zero]
    · exact indent_after_newlines_id L k s (by rw [internal_newlines_eq_count, h])
  refine ⟨copies L k, if newline then "\n".toList else [], ?_⟩
  rw [formatted, indent_spec, key]



theorem no_fixed_literal_keeps_infix (l0 : Char) (L1 : List Char) (hL : '\n' ∉ l0 :: L1)
    (c : Char) (hc : c ≠ l0) (hcn : c ≠ '\n') :
    ¬ [c, '\n', c] <:+: formatted (l0 :: L1) 1 [c, '\n', c] false := by
  have hcn2 : ¬ (c = '\n' ∧ ['\n', c] ≠ []) := fun h => hcn h.1
  have hcn3 : ¬ (c = '\n' ∧ ([] : List Char) ≠ []) := fun h => hcn h.1
  have hf : formatted (l0 :: L1) 1 [c, '\n', c] false
      = ((l0 :: L1) ++ [c]) ++ '\n' :: ((l0 :: L1) ++ [c]) := by
    rw [formatted, indent_spec, indent_after_newlines_other _ _ c _ hcn2,
      indent_after_newlines_inner _ _ '\n' [c] ⟨rfl, by simp⟩,
      indent_after_newlines_other _ _ c _ hcn3]
    simp [copies, indent_after_newlines]
  rw [hf]
  rintro ⟨p, q, hpq⟩
  have hcount := congrArg (List.count '\n') hpq
  have hL0 : List.count '\n' (l0 :: L1) = 0 := List.count_eq_zero.mpr hL
  have hc0 : List.count '\n' [c] = 0 := List.count_eq_zero.mpr (by simpa using hcn.symm)
  have e1 : p ++ [c, '\n', c] ++ q = (p ++ [c]) ++ '\n' :: (c :: q) := by simp
  rw [e1] at hpq hcount
  simp only [List.count_append, List.count_cons_self, hL0, hc0] at hcount
  have hcq : List.count '\n' (c :: q) = List.count '\n' q := by
    rw [List.count_cons]
    have : (c == '\n') = false := by simpa using hcn
    simp [this]
  have hp : '\n' ∉ p := List.count_eq_zero.mp (by omega)
  have hX : '\n' ∉ p ++ [c] := by
    simp only [List.mem_append, List.mem_singleton, not_or]
    exact ⟨hp, fun h => hcn h.symm⟩
  have hX1 : '\n' ∉ (l0 :: L1) ++ [c] := by
    simp only [List.mem_append, List.mem_singleton, not_or]
    exact ⟨hL, fun h => hcn h.symm⟩
  have := (split_at_newline _ _ _ _ hX hX1 hpq).2
  simp only [List.cons_append, List.cons.injEq] at this
  exact hc this.1

/-- C6 as stated does not hold: at depth 1 with an indentation literal of four
blanks, `enter("a\nb", false)` writes `"    a\n    b"`, which does not contain
`"a\nb"` as a contiguous substring.  The literal does not matter: for no
non-empty literal without a newline does every written text contain its entry. -/
theorem C6_substring_counterexample :
    (indented_log.enter no_faults "a\nb".toList false
        = some { indented_log with cout := ["    a\n    b".toList] }
      ∧ ¬ "a\nb".toList <:+: "    a\n    b".toList)
    ∧ ¬ ∃ L : List Char, L ≠ [] ∧ '\n' ∉ L ∧
        ∀ s : List Char, s ≠ [] →
          ∃ t : List Char,
            ({ indented_log with indentation := L } : Log).enter no_faults s false
              = some { indented_log with indentation := L, cout := [t] }
            ∧ s <:+: t := by
  refine ⟨⟨by decide, by decide⟩, ?_⟩
  rintro ⟨L, hne, hL, h⟩
  obtain ⟨l0, L1, rfl⟩ := List.exists_cons_of_ne_nil hne
  have key : ∀ c : Char, c ≠ l0 → c ≠ '\n' → False := by
    intro c hc hcn
    obtain ⟨t, ht, hinf⟩ := h [c, '\n', c] (by simp)
    rw [enter_eq _ _ _ rfl (by simp) (Or.inr hL)
      (fun hh => absurd hh (Bool.false_ne_true))] at ht
    simp only [Log.emit, indented_log, Bool.false_eq_true, if_false, Option.some.injEq,
      Log.mk.injEq, List.nil_append, List.cons.injEq, and_true, true_and] at ht
    subst ht
    exact no_fixed_literal_keeps_infix l0 L1 hL c hc hcn hinf
  by_cases ha : l0 = 'a'
  · exact key 'b' (by rw [ha]; decide) (by decide)
  · exact key 'a' (fun h => ha h.symm) (by decide)

/-- C6, amended: while the logger is on, `enter(s, newline)` with a non-empty `s`
emits the text `indent(s)`, followed by a newline when `newline` is set, where
`indent(s)` is `s` with `indent_amt` copies of the literal at position 0 and
after every internal newline: in synchronous mode the text is written to the
sink, in asynchronous mode it is appended to the queue and written by the next
`empty_queue`.  The text contains all characters of `s` in order, and it
contains `s` as a contiguous substring when `indent_amt = 0` or `s` has no
internal newline. -/
theorem C6_enter_text (st : Log) (s : List Char) (newline : Bool)
    (hon : st.is_on = true) (hs : s ≠ []) (hL : '\n' ∉ st.indentation) :
    (st.async = false →
        st.enter no_faults s newline
          = some { st with
              cout := st.cout ++ [formatted st.indentation st.indent_amt s newline] })
    ∧ (st.async = true → st.msgs_mutex = false →
        st.enter no_faults s newline
          = some { st with
              msgs := st.msgs ++ [formatted st.indentation st.indent_amt s newline] }
        ∧ ({ st with
              msgs := st.msgs ++ [formatted st.indentation st.indent_amt s newline] }
            : Log).empty_queue no_faults
          = some { st with
              cout := st.cout ++ (st.msgs
                ++ [formatted st.indentation st.indent_amt s newline]),
              msgs := [] })
    ∧ s.Sublist (formatted st.indentation st.indent_amt s newline)
    ∧ (st.indent_amt = 0 ∨ s.dropLast.count '\n' = 0 →
        s <:+: formatted st.indentation st.indent_amt s newline) := by
  refine ⟨?_, ?_, formatted_sublist _ _ _ _, formatted_infix _ _ _ _⟩
  · intro ha
    rw [enter_eq st s newline hon hs (Or.inr hL) (by rw [ha]; intro h; exact absurd h (by decide))]
    simp only [Log.emit, ha, Bool.false_eq_true, if_false]
  · intro ha hm
    refine ⟨?_, ?_⟩
    · rw [enter_eq st s newline hon hs (Or.inr hL) (fun _ => hm)]
      simp only [Log.emit, ha, if_true]
    · exact empty_queue_eq _ hm

/-- C6, at depth 2 with the literal `"--"`: `enter("ab", true)` writes
`"----ab\n"`. -/
theorem C6_enter_text_witness :
    sample_log.enter no_faults "ab".toList true
      = some { sample_log with cout := ["----ab\n".toList] } := by
  rw [(C6_enter_text sample_log "ab".toList true rfl (by decide) (by decide)).1 rfl]
  decide

theorem join_entries_eq (entries : List (List Char)) (t : List (List Char)) :
    ∀ (fuel i : Nat) (entry : List Char), entries.drop i = t → t ≠ [] → t.length ≤ fuel + 1 →
      join_entries entries fuel i entry
        = some (entry ++ (t.dropLast.map (fun e => e ++ ", ".toList)).flatten) := by
  induction t with
  | nil => intro _ _ _ _ h; exact absurd rfl h
  | cons a t ih =>
    intro fuel i entry hd _ hf
    obtain ⟨hget, hdrop, hlen⟩ := drop_cons_facts entries i a t hd
    cases t with
    | nil =>
      have hc : ¬ i < entries.length - 1 := by simp at hlen; omega
      cases fuel <;> simp [join_entries, hc]
    | cons b t =>
      have hc : i < entries.length - 1 := by simp at hlen; omega
      cases fuel with
      | zero => simp at hf
      | succ fuel =>
        rw [join_entries]
        simp only [hc, if_true, hget]
        rw [ih fuel (i + 1) _ hdrop (by simp) (by simpa using hf)]
        simp [List.dropLast, List.append_assoc]

theorem flatten_dropLast_intercalate (sep : List Char) (t : List (List Char)) (l : List Char)
    (h : t.getLast? = some l) :
    (t.dropLast.map (fun e => e ++ sep)).flatten ++ l = sep.intercalate t := by
  induction t with
  | nil => simp at h
  | cons a t ih =>
    cases t with
    | nil =>
      simp at h
      subst h
      simp [List.intercalate]
    | cons b t =>
      have h2 : (b :: t).getLast? = some l := by simpa [List.getLast?_cons_cons] using h
      have := ih h2
      simp only [List.dropLast_cons₂, List.map_cons, List.flatten_cons, List.append_assoc]
      rw [this]
      simp [List.intercalate, List.append_assoc]

theorem list_entry_eq (name : List Char) (entries : List (List Char)) :
    list_entry name entries = some (list_text name entries) := by
  unfold list_entry list_text
  cases entries with
  | nil => simp
  | cons a t =>
    cases t with
    | nil => simp [List.intercalate]
    | cons b t =>
      have hl : ∃ l, (a :: b :: t).getLast? = some l := by
        cases hh : (a :: b :: t).getLast? with
        | none => simp at hh
        | some l => exact ⟨l, rfl⟩
      obtain ⟨l, hl⟩ := hl
      have hj := join_entries_eq (a :: b :: t) (a :: b :: t) (a :: b :: t).length 0
        (name ++ ": ".toList) rfl (by simp) (by omega)
      have hi := flatten_dropLast_intercalate ", ".toList (a :: b :: t) l hl
      simp only [List.length_cons, Nat.add_one_ne_zero, if_false, reduceCtorEq,
        Nat.add_left_eq_self] at hj ⊢
      rw [hj]
      simp only [hl, ← hi, List.append_assoc]

theorem formatted_zero (L e : List Char) : formatted L 0 e false = e := by
  simp [formatted, indent_spec_zero]

theorem list_text_ne_nil (name : List Char) (entries : List (List Char)) :
    list_text name entries ≠ [] := by
  simp [list_text]

theorem enter_list_eq (st : Log) (name : List Char) (entries : List (List Char))
    (hon : st.is_on = true) (hk : st.indent_amt = 0)
    (hm : st.async = true → st.msgs_mutex = false) :
    st.enter_list no_faults name entries = some (st.emit (list_text name entries)) := by
  unfold Log.enter_list
  rw [if_pos hon, list_entry_eq]
  simp only
  rw [enter_eq st _ false hon (list_text_ne_nil name entries) (Or.inl hk) hm, hk, formatted_zero]

/-- C7: with the logger on and `indent_amt = 0`, the list overload of `enter`
emits exactly `name + ": " + body + "\n"`, where `body` is `"<none>"` for an
empty list and otherwise the items joined in order by `", "`; the text is
written as it is (synchronous mode) or queued as it is (asynchronous mode), with
no second newline, whatever the name and the items are. -/
theorem C7_enter_list (st : Log) (name : List Char) (entries : List (List Char))
    (hon : st.is_on = true) (hk : st.indent_amt = 0) :
    (st.async = false →
        st.enter_list no_faults name entries
          = some { st with cout := st.cout ++ [name ++ ": ".toList
              ++ (if entries = [] then "<none>".toList else ", ".toList.intercalate entries)
              ++ "\n".toList] })
    ∧ (st.async = true → st.msgs_mutex = false →
        st.enter_list no_faults name entries
          = some { st with msgs := st.msgs ++ [name ++ ": ".toList
              ++ (if entries = [] then "<none>".toList else ", ".toList.intercalate entries)
              ++ "\n".toList] })
    ∧ (∀ a : List Char, ", ".toList.intercalate [a] = a)
    ∧ (∀ a b c : List Char,
        ", ".toList.intercalate [a, b, c] = a ++ ", ".toList ++ b ++ ", ".toList ++ c) := by
  refine ⟨?_, ?_, ?_, ?_⟩
  · intro ha
    rw [enter_list_eq st name entries hon hk (by rw [ha]; exact fun h => absurd h Bool.false_ne_true)]
    simp only [Log.emit, ha, Bool.false_eq_true, if_false, list_text]
  · intro ha hm
    rw [enter_list_eq st name entries hon hk (fun _ => hm)]
    simp only [Log.emit, ha, if_true, list_text]
  · intro a; simp [List.intercalate]
  · intro a b c; simp [List.intercalate]

/-- C7, at a synchronous logger of depth 0 and the list `a, b, c`. -/
theorem C7_enter_list_witness :
    ({ sample_log with indent_amt := 0 } : Log).enter_list no_faults "name".toList
        ["a".toList, "b".toList, "c".toList]
      = some { sample_log with indent_amt := 0, cout := ["name: a, b, c\n".toList] } := by
  rw [(C7_enter_list { sample_log with indent_amt := 0 } "name".toList
        ["a".toList, "b".toList, "c".toList] rfl rfl).1 rfl]
  decide

theorem submit_off (spacer : List Char) (dn : Bool) (flt : Faults) (st : Log)
    (op : Submission) (hoff : st.is_on = false) :
    st.submit spacer dn flt op
      = some (if op = Submission.brk then { st with indent_amt := 0 } else st) := by
  cases op with
  | enter text newline => simp [Log.submit, enter_off, hoff]
  | enter_list name entries => simp [Log.submit, Log.enter_list, hoff]
  | enter_obj obj => simp [Log.submit, Log.enter_obj, hoff]
  | attempt text => simp [Log.submit, Log.attempt, enter_off, hoff]
  | finish => simp [Log.submit, Log.finish, enter_off, hoff]
  | brk =>
    simp only [Log.submit, Log.brk, if_true]
    exact enter_off flt _ _ _ hoff

theorem submit_all_off (spacer : List Char) (dn : Bool) (ops : List (Faults × Submission)) :
    ∀ st : Log, st.is_on = false →
      ∃ k : Nat, st.submit_all spacer dn ops = some { st with indent_amt := k } := by
  induction ops with
  | nil => intro st _; exact ⟨st.indent_amt, rfl⟩
  | cons p ops ih =>
    intro st hoff
    obtain ⟨flt, op⟩ := p
    rw [Log.submit_all, submit_off spacer dn flt st op hoff]
    simp only
    by_cases hb : op = Submission.brk
    · rw [if_pos hb]
      obtain ⟨k, hk⟩ := ih { st with indent_amt := 0 } hoff
      exact ⟨k, hk⟩
    · rw [if_neg hb]
      exact ih st hoff

/-- C8: while the logger is off, every submission operation, in either mode and
whatever the environment does, returns with the sink and the queue unchanged
(the state is unchanged, except that `brk` resets `indent_amt`); after any
sequence of them, switching the logger on and draining writes the entries that
were queued before and nothing else. -/
theorem C8_off_suppresses (spacer : List Char) (default_newline : Bool) (st : Log)
    (hoff : st.is_on = false) :
    (∀ (flt : Faults) (op : Submission),
        st.submit spacer default_newline flt op
          = some (if op = Submission.brk then { st with indent_amt := 0 } else st))
    ∧ (∀ ops : List (Faults × Submission),
        ∃ k : Nat,
          st.submit_all spacer default_newline ops = some { st with indent_amt := k }
          ∧ (st.msgs_mutex = false →
              ({ st with indent_amt := k } : Log).turn_on.empty_queue no_faults
                = some { st with
                    indent_amt := k, is_on := true, cout := st.cout ++ st.msgs, msgs := [] })) := by
  refine ⟨fun flt op => submit_off spacer default_newline flt st op hoff, ?_⟩
  intro ops
  obtain ⟨k, hk⟩ := submit_all_off spacer default_newline ops st hoff
  refine ⟨k, hk, ?_⟩
  intro hm
  exact empty_queue_eq _ hm

/-- C8, at a logger that is off with one entry pending: `enter("lost", true)`
leaves the state, the sink and the queue included, as it was. -/
theorem C8_off_suppresses_witness :
    off_log.is_on = false
    ∧ off_log.submit "  ".toList true no_faults (Submission.enter "lost".toList true)
        = some off_log := by
  refine ⟨rfl, ?_⟩
  rw [(C8_off_suppresses "  ".toList true off_log rfl).1]
  rfl

/-- C9: an object without members is rendered as the empty string, whatever its
name, and `enter_obj` on it returns with the logger state unchanged (nothing is
written and nothing is queued), for every value of `on`, `async` and
`indent_amt` and whatever the environment does. -/
theorem C9_empty_object (spacer name : List Char) (flt : Faults) (st : Log) :
    LoggableObj.str spacer ⟨name, []⟩ = some []
    ∧ st.enter_obj spacer flt ⟨name, []⟩ = some st := by
  refine ⟨rfl, ?_⟩
  unfold Log.enter_obj
  split
  · exact enter_nil flt st false
  · rfl



theorem async_run_append (pre suf : List AsyncStep) :
    ∀ st : Log, st.async_run (pre ++ suf)
      = match st.async_run pre with
        | none => none
        | some st1 => st1.async_run suf := by
  induction pre with
  | nil => intro st; rfl
  | cons step pre ih =>
    intro st
    rw [List.cons_append, Log.async_run, Log.async_run]
    cases st.async_step step with
    | none => rfl
    | some st1 => exact ih st1

theorem async_run_inv (steps : List AsyncStep) :
    ∀ st : Log, st.is_on = true → st.async = true → st.msgs_mutex = false →
      '\n' ∉ st.indentation →
      (∀ (e : List Char) (nl : Bool), AsyncStep.submit e nl ∈ steps → e ≠ []) →
      ∃ (out q : List (List Char)),
        st.async_run steps = some { st with cout := out, msgs := q }
        ∧ out ++ q = st.cout ++ st.msgs ++ submitted_texts st.indentation st.indent_amt steps := by
  induction steps with
  | nil =>
    intro st _ _ _ _ _
    exact ⟨st.cout, st.msgs, rfl, by simp [submitted_texts]⟩
  | cons step steps ih =>
    intro st hon ha hm hL hne
    have hne1 : ∀ (e : List Char) (nl : Bool), AsyncStep.submit e nl ∈ steps → e ≠ [] :=
      fun e nl h => hne e nl (List.mem_cons_of_mem _ h)
    obtain ⟨o, async, stopped, k, L, msgs, mtx, emp, cout⟩ := st
    simp only at hon ha hm hL
    subst hon ha hm
    cases step with
    | submit e nl =>
      have he : e ≠ [] := hne e nl (List.mem_cons_self _ _)
      have h1 := enter_eq ⟨true, true, stopped, k, L, msgs, false, emp, cout⟩ e nl rfl he
        (Or.inr hL) (fun _ => rfl)
      simp only [Log.emit, if_true] at h1
      obtain ⟨out, q, hrun, hinv⟩ :=
        ih ⟨true, true, stopped, k, L, msgs ++ [formatted L k e nl], false, emp, cout⟩
          rfl rfl rfl hL hne1
      refine ⟨out, q, ?_, ?_⟩
      · rw [Log.async_run, Log.async_step, h1]
        exact hrun
      · rw [hinv]
        simp [submitted_texts, List.append_assoc]
    | pop =>
      cases msgs with
      | nil =>
        obtain ⟨out, q, hrun, hinv⟩ :=
          ih ⟨true, true, stopped, k, L, [], false, emp, cout⟩ rfl rfl rfl hL hne1
        exact ⟨out, q, by rw [Log.async_run, Log.async_step]; exact hrun,
          by rw [hinv]; simp [submitted_texts]⟩
      | cons m ms =>
        obtain ⟨out, q, hrun, hinv⟩ :=
          ih ⟨true, true, stopped, k, L, ms, false, emp, cout ++ [m]⟩ rfl rfl rfl hL hne1
        exact ⟨out, q, by rw [Log.async_run, Log.async_step]; exact hrun,
          by rw [hinv]; simp [submitted_texts]⟩
    | drain =>
      have h1 := empty_queue_eq ⟨true, true, stopped, k, L, msgs, false, emp, cout⟩ rfl
      obtain ⟨out, q, hrun, hinv⟩ :=
        ih ⟨true, true, stopped, k, L, [], false, emp, cout ++ msgs⟩ rfl rfl rfl hL hne1
      refine ⟨out, q, ?_, ?_⟩
      · rw [Log.async_run, Log.async_step, h1]
        exact hrun
      · rw [hinv]
        simp [submitted_texts]



/-- C10: in asynchronous mode with the logger on, for every interleaving of
submissions of non-empty entries with steps of the drain worker (one pop of the
front, or a whole `empty_queue`), after every prefix of the run the texts
written so far followed by the queue from front to back are the texts that
were there at the start followed by the formatted entries in the order of
submission; a final `empty_queue` leaves exactly these texts in the sink, in
that order, and an empty queue. -/
theorem C10_fifo (st : Log) (steps : List AsyncStep)
    (hon : st.is_on = true) (ha : st.async = true) (hm : st.msgs_mutex = false)
    (hL : '\n' ∉ st.indentation)
    (hne : ∀ (e : List Char) (nl : Bool), AsyncStep.submit e nl ∈ steps → e ≠ []) :
    (∀ pre suf : List AsyncStep, steps = pre ++ suf →
        ∃ (out q : List (List Char)),
          st.async_run pre = some { st with cout := out, msgs := q }
          ∧ out ++ q
              = st.cout ++ st.msgs ++ submitted_texts st.indentation st.indent_amt pre)
    ∧ (∃ (out q : List (List Char)),
        st.async_run steps = some { st with cout := out, msgs := q }
        ∧ out ++ q
            = st.cout ++ st.msgs ++ submitted_texts st.indentation st.indent_amt steps
        ∧ ({ st with cout := out, msgs := q } : Log).empty_queue no_faults
            = some { st with
                cout := st.cout ++ st.msgs
                  ++ submitted_texts st.indentation st.indent_amt steps,
                msgs := [] }) := by
  refine ⟨?_, ?_⟩
  · intro pre suf hsplit
    exact async_run_inv pre st hon ha hm hL
      (fun e nl h => hne e nl (by rw [hsplit]; exact List.mem_append_left _ h))
  · obtain ⟨out, q, hrun, hinv⟩ := async_run_inv steps st hon ha hm hL hne
    refine ⟨out, q, hrun, hinv, ?_⟩
    have hq := empty_queue_eq ({ st with cout := out, msgs := q } : Log) hm
    rw [hq]
    simp only [hinv]

theorem three_entries_nonempty :
    ∀ (e : List Char) (nl : Bool), AsyncStep.submit e nl ∈ three_entries → e ≠ [] := by
  intro e nl h
  simp only [three_entries, List.mem_cons, AsyncStep.submit.injEq, reduceCtorEq,
    List.not_mem_nil, false_or, or_false] at h
  rcases h with h | h | h <;> (rw [h.1]; decide)

/-- C10, at the run `three_entries` of a logger with an empty queue. -/
theorem C10_fifo_witness :
    ∃ (out q : List (List Char)),
      async_log.async_run three_entries = some { async_log with cout := out, msgs := q }
      ∧ out ++ q = async_log.cout ++ async_log.msgs
          ++ submitted_texts async_log.indentation async_log.indent_amt three_entries
      ∧ ({ async_log with cout := out, msgs := q } : Log).empty_queue no_faults
          = some { async_log with
              cout := async_log.cout ++ async_log.msgs
                ++ submitted_texts async_log.indentation async_log.indent_amt three_entries,
              msgs := [] } :=
  (C10_fifo async_log three_entries rfl rfl rfl (by decide) three_entries_nonempty).2

/-- The run `three_entries` writes the three entries in the order of submission. -/
theorem three_entries_run :
    async_log.async_run three_entries
      = some { async_log with cout := ["e1\n".toList, "e2\n".toList, "e3\n".toList] } := by
  decide

/-! ## Theorems: mode switches and `brk` -/

theorem async_on_async (st : Log) : st.async_on.async = true := by
  unfold Log.async_on
  cases h : st.async <;> simp [h]

theorem async_on_of_async (st : Log) (h : st.async = true) : st.async_on = st := by
  simp [Log.async_on, h]

theorem async_off_of_sync (flt : Faults) (st : Log) (h : st.async = false) :
    st.async_off flt = some st := by
  simp [Log.async_off, h]

theorem async_off_async (flt : Faults) (st st1 : Log) (h : st.async_off flt = some st1) :
    st1.async = false := by
  obtain ⟨o, async, stopped, k, L, msgs, mtx, emp, cout⟩ := st
  cases async with
  | false =>
    simp only [Log.async_off, Bool.false_eq_true, if_false, Option.some.injEq] at h
    rw [← h]
  | true =>
    simp only [Log.async_off, if_true] at h
    cases he : Log.empty_queue flt ⟨o, true, true, k, L, msgs, mtx, emp, cout⟩ with
    | none => rw [he] at h; simp at h
    | some st2 =>
      rw [he] at h
      simp only [Option.some.injEq] at h
      rw [← h]

theorem async_off_eq (st : Log) (ha : st.async = true) (hm : st.msgs_mutex = false) :
    st.async_off no_faults
      = some { st with
          cout := st.cout ++ st.msgs, msgs := [], async := false,
          emptier := st.emptier - 1 } := by
  obtain ⟨o, async, stopped, k, L, msgs, mtx, emp, cout⟩ := st
  simp only at ha hm
  subst ha hm
  have he := empty_queue_eq ⟨o, true, true, k, L, msgs, false, emp, cout⟩ rfl
  simp only [Log.async_off, if_true]
  rw [he]

theorem wait_to_empty_eq (passes : Nat) :
    ∀ st : Log, st.msgs_mutex = false →
      Log.wait_to_empty no_faults passes st
        = some { st with cout := st.cout ++ st.msgs, msgs := [] } := by
  induction passes with
  | zero => intro st hm; exact empty_queue_eq st hm
  | succ n ih =>
    intro st hm
    rw [Log.wait_to_empty, empty_queue_eq st hm]
    simp only
    rw [ih ({ st with cout := st.cout ++ st.msgs, msgs := [] } : Log) hm]
    simp


/-- C11: `async_on` twice is `async_on` once: the state is asynchronous, from a
synchronous state exactly one drain worker has been spawned, and a call on an
asynchronous state changes nothing.  `async_off` twice is `async_off` once: when
the first call returns, the state is synchronous and a second call returns it
unchanged, as every call on a synchronous state does. -/
theorem C11_mode_switch_idempotent (st : Log) :
    st.async_on.async_on = st.async_on
    ∧ st.async_on.async = true
    ∧ (st.async = false → st.async_on.async_on.emptier = st.emptier + 1)
    ∧ (st.async = true → st.async_on = st)
    ∧ (∀ flt flt1 : Faults,
        (st.async_off flt).bind (Log.async_off flt1) = st.async_off flt)
    ∧ (∀ (flt flt1 : Faults) (st1 : Log), st.async_off flt = some st1 →
        st1.async = false ∧ st1.async_off flt1 = some st1)
    ∧ (st.async = false → ∀ flt : Faults, st.async_off flt = some st) := by
  refine ⟨async_on_of_async _ (async_on_async st), async_on_async st, ?_,
    async_on_of_async st, ?_, ?_, fun h flt => async_off_of_sync flt st h⟩
  · intro h
    rw [async_on_of_async _ (async_on_async st)]
    simp [Log.async_on, h]
  · intro flt flt1
    cases h : st.async_off flt with
    | none => rfl
    | some st1 =>
      exact async_off_of_sync flt1 st1 (async_off_async flt st st1 h)
  · intro flt flt1 st1 h
    exact ⟨async_off_async flt st st1 h,
      async_off_of_sync flt1 st1 (async_off_async flt st st1 h)⟩

/-- C12: from a state with `async = true`, a free mutex and the pending queue
`msgs`, `async_off` returns with an empty queue, the sink followed by the
entries of the queue in order, `async = false` and one drain worker less;
`stopped`, `on`, `indent_amt` and the literal are as before.  The worker that is
joined ends in this state after any number of passes of its loop.  From a state
with `async = false`, `async_off` changes nothing. -/
theorem C12_async_off_post (st : Log) (ha : st.async = true) (hm : st.msgs_mutex = false) :
    st.async_off no_faults
      = some { st with
          cout := st.cout ++ st.msgs, msgs := [], async := false,
          emptier := st.emptier - 1 }
    ∧ (∀ passes : Nat,
        Log.wait_to_empty no_faults passes { st with stopped := true }
          = some { st with stopped := true, cout := st.cout ++ st.msgs, msgs := [] })
    ∧ (∀ (flt : Faults) (st0 : Log), st0.async = false → st0.async_off flt = some st0) := by
  refine ⟨async_off_eq st ha hm, ?_, fun flt st0 h => async_off_of_sync flt st0 h⟩
  intro passes
  exact wait_to_empty_eq passes { st with stopped := true } hm

/-- C12, at an asynchronous logger with two entries pending. -/
theorem C12_async_off_post_witness :
    ({ async_log with msgs := ["a\n".toList, "b\n".toList] } : Log).async_off no_faults
      = some { async_log with
          cout := ["a\n".toList, "b\n".toList], async := false, emptier := 0 } := by
  rw [(C12_async_off_post { async_log with msgs := ["a\n".toList, "b\n".toList] } rfl rfl).1]
  rfl

/-- C13: `brk` sets `indent_amt` to 0 and, when the logger is on, emits exactly
the entry `"\n"`, without indentation and without a second newline: written to
the sink in synchronous mode, appended to the queue in asynchronous mode.  When
the logger is off, the depth is reset and nothing is emitted.  No other field
changes. -/
theorem C13_brk (st : Log) (hm : st.async = true → st.msgs_mutex = false) :
    (st.is_on = true → st.async = false →
        st.brk no_faults
          = some { st with indent_amt := 0, cout := st.cout ++ ["\n".toList] })
    ∧ (st.is_on = true → st.async = true →
        st.brk no_faults
          = some { st with indent_amt := 0, msgs := st.msgs ++ ["\n".toList] })
    ∧ (st.is_on = false → ∀ flt : Faults, st.brk flt = some { st with indent_amt := 0 }) := by
  have key : st.is_on = true →
      st.brk no_faults
        = some (({ st with indent_amt := 0 } : Log).emit "\n".toList) := by
    intro hon
    unfold Log.brk
    simp only
    rw [enter_eq { st with indent_amt := 0 } "\n".toList false hon (by decide) (Or.inl rfl) hm,
      formatted_zero]
  refine ⟨?_, ?_, ?_⟩
  · intro hon ha
    rw [key hon]
    simp only [Log.emit, ha, Bool.false_eq_true, if_false]
  · intro hon ha
    rw [key hon]
    simp only [Log.emit, ha, if_true]
  · intro hoff flt
    exact enter_off flt _ _ _ hoff

/-- C13, at depth 2 with the literal `"--"`: `brk` writes `"\n"` alone. -/
theorem C13_brk_witness :
    sample_log.brk no_faults
      = some { sample_log with indent_amt := 0, cout := ["\n".toList] } := by
  rw [(C13_brk sample_log (fun h => absurd h (by decide))).1 rfl rfl]
  rfl

/-! ## Theorems: failures, the newline policy and the mutex -/

theorem format_entry_congr (flt : Faults) (st st1 : Log) (e : List Char) (nl : Bool)
    (hk : st1.indent_amt = st.indent_amt) (hL : st1.indentation = st.indentation) :
    st1.format_entry flt e nl = st.format_entry flt e nl := by
  simp only [Log.format_entry, Log.indent_entry, hk, hL]

theorem indent_entry_faults (flt : Faults) (st : Log) (e : List Char)
    (hi : flt.insert = false) : st.indent_entry flt e = st.indent_entry no_faults e := by
  simp only [Log.indent_entry, hi, no_faults]

theorem enter_async_cases (flt : Faults) (st : Log) (e : List Char) (nl : Bool)
    (hl : flt.lock = false) (hm : st.msgs_mutex = false) :
    st.enter_async flt e nl
      = match st.format_entry flt e nl with
        | none => none
        | some (false, _) => some st
        | some (true, t) =>
          if flt.push then some st else some { st with msgs := st.msgs ++ [t] } := by
  obtain ⟨o, async, stopped, k, L, msgs, mtx, emp, cout⟩ := st
  simp only at hm
  subst hm
  have hc := format_entry_congr flt ⟨o, async, stopped, k, L, msgs, false, emp, cout⟩
    ⟨o, async, stopped, k, L, msgs, true, emp, cout⟩ e nl rfl rfl
  simp only [Log.enter_async, hl, Bool.false_eq_true, if_false]
  rw [hc]

theorem enter_async_lock_fault (flt : Faults) (st : Log) (e : List Char) (nl : Bool)
    (hl : flt.lock = true) : st.enter_async flt e nl = some st := by
  simp [Log.enter_async, hl]

theorem format_entry_insert_fault (flt : Faults) (st : Log) (e : List Char) (nl : Bool)
    (hi : flt.insert = true) (hk : 0 < st.indent_amt) (he : e ≠ []) :
    st.format_entry flt e nl = some (false, e) := by
  have hpos : 0 < e.length := List.length_pos.mpr he
  simp only [Log.format_entry, Log.indent_entry, hk, if_true, scan_bound, indent_scan, hpos,
    hi, Bool.and_self, decide_True]

theorem format_entry_append_fault (flt : Faults) (st : Log) (e : List Char)
    (hi : flt.insert = false) (ha : flt.append = true) (he : e ≠ [])
    (hL : '\n' ∉ st.indentation) :
    st.format_entry flt e true
      = some (false, indent_spec st.indentation st.indent_amt e) := by
  simp only [Log.format_entry, indent_entry_faults flt st e hi, indent_entry_eq st e he hL,
    append_newline, ha, if_true]


/-- C14: whenever `format_entry` returns `false` (a throwing `entry.insert` in
`indent_entry`, or a throwing `entry += "\n"` in `append_newline`), the
submission is dropped: `enter_sync`, `enter_async` and `enter` return with the
state, the sink and the queue included, exactly as before the call.  It returns
`false` when `entry.insert` throws at a depth of at least 1 on a non-empty
entry, and when the append throws after a successful indentation. -/
theorem C14_discard_on_format_failure (st : Log) (flt : Faults) (e : List Char)
    (nl : Bool) (e1 : List Char) (hfail : st.format_entry flt e nl = some (false, e1)) :
    st.enter_sync flt e nl = some st
    ∧ (st.msgs_mutex = false → st.enter_async flt e nl = some st)
    ∧ ((st.async = true → st.msgs_mutex = false) → st.enter flt e nl = some st)
    ∧ (∀ (flt1 : Faults) (x : List Char) (b : Bool),
        flt1.insert = true → 0 < st.indent_amt → x ≠ [] →
        st.format_entry flt1 x b = some (false, x))
    ∧ (∀ (flt1 : Faults) (x : List Char),
        flt1.insert = false → flt1.append = true → x ≠ [] → '\n' ∉ st.indentation →
        st.format_entry flt1 x true
          = some (false, indent_spec st.indentation st.indent_amt x)) := by
  have hs : st.enter_sync flt e nl = some st := by
    unfold Log.enter_sync
    rw [hfail]
  have ha : st.msgs_mutex = false → st.enter_async flt e nl = some st := by
    intro hm
    cases hl : flt.lock with
    | true => exact enter_async_lock_fault flt st e nl hl
    | false => rw [enter_async_cases flt st e nl hl hm, hfail]
  refine ⟨hs, ha, ?_,
    fun flt1 x b hi hk hx => format_entry_insert_fault flt1 st x b hi hk hx,
    fun flt1 x hi hap hx hL => format_entry_append_fault flt1 st x hi hap hx hL⟩
  intro hm
  unfold Log.enter
  split
  · split
    · next h => exact ha (hm h)
    · exact hs
  · rfl

/-- C14, at depth 2 with the literal `"--"`, when `entry.insert` throws: the
entry `"ab"` is dropped. -/
theorem C14_discard_on_format_failure_witness :
    sample_log.format_entry ⟨false, true, false, false⟩ "ab".toList true
        = some (false, "ab".toList)
    ∧ sample_log.enter ⟨false, true, false, false⟩ "ab".toList true = some sample_log :=
  ⟨by decide,
    (C14_discard_on_format_failure sample_log ⟨false, true, false, false⟩ "ab".toList true
      "ab".toList (by decide)).2.2.1 (fun h => absurd h (by decide))⟩

/-- C15: for every entry and depth (literal without a newline), `indent_entry`
returns `true` with an indented entry `r`, `format_entry(e, false)` yields `r`
and `format_entry(e, true)` yields `r + "\n"`: the newline is appended after
the indentation, nothing follows it, and the result is one character longer.
For a non-empty entry `r` is the reference indentation of the entry alone, for
the empty entry it is empty. -/
theorem C15_newline_policy (st : Log) (e : List Char) (hL : '\n' ∉ st.indentation) :
    ∃ r : List Char,
      st.indent_entry no_faults e = some (true, r)
      ∧ st.format_entry no_faults e false = some (true, r)
      ∧ st.format_entry no_faults e true = some (true, r ++ "\n".toList)
      ∧ (r ++ "\n".toList).length = r.length + 1
      ∧ (r ++ "\n".toList).getLast? = some '\n'
      ∧ (e ≠ [] → r = indent_spec st.indentation st.indent_amt e)
      ∧ (e = [] → r = []) := by
  by_cases he : e = []
  · subst he
    refine ⟨[], indent_entry_nil _ st, ?_, ?_, rfl, rfl, fun h => absurd rfl h, fun _ => rfl⟩
    · simp only [Log.format_entry, indent_entry_nil, append_newline, Bool.false_eq_true, if_false]
    · simp only [Log.format_entry, indent_entry_nil, append_newline, no_faults, if_true,
        Bool.false_eq_true, if_false]
  · refine ⟨indent_spec st.indentation st.indent_amt e, indent_entry_eq st e he hL, ?_, ?_, ?_,
      ?_, fun _ => rfl, fun h => absurd h he⟩
    · simp only [Log.format_entry, indent_entry_eq st e he hL, append_newline,
        Bool.false_eq_true, if_false]
    · rw [Log.format_entry, indent_entry_eq st e he hL]
      simp only [append_newline, no_faults, if_true, Bool.false_eq_true, if_false]
    · simp
    · simp

/-- C15, at depth 2 with the literal `"--"` and the entry `"a\n"`: the appended
newline is not indented and does not make the first newline an internal one. -/
theorem C15_newline_policy_witness :
    sample_log.format_entry no_faults "a\n".toList true = some (true, "----a\n\n".toList)
    ∧ ∃ r : List Char,
      sample_log.indent_entry no_faults "a\n".toList = some (true, r)
      ∧ sample_log.format_entry no_faults "a\n".toList false = some (true, r)
      ∧ sample_log.format_entry no_faults "a\n".toList true = some (true, r ++ "\n".toList) := by
  refine ⟨by decide, ?_⟩
  obtain ⟨r, h1, h2, h3, _⟩ := C15_newline_policy sample_log "a\n".toList (by decide)
  exact ⟨r, h1, h2, h3⟩

/-- C16: from a state in which the queue mutex is free, `enter_async` and
`empty_queue` leave it free whenever they return, on every path: the lock that
throws (nothing acquired, state unchanged), the formatting failure, the push
failure, the successful enqueue and the completed drain. -/
theorem C16_lock_balance (st : Log) (hm : st.msgs_mutex = false) :
    (∀ (flt : Faults) (e : List Char) (nl : Bool) (st1 : Log),
        st.enter_async flt e nl = some st1 → st1.msgs_mutex = false)
    ∧ (∀ (flt : Faults) (st1 : Log), st.empty_queue flt = some st1 → st1.msgs_mutex = false)
    ∧ (∀ (flt : Faults) (e : List Char) (nl : Bool), flt.lock = true →
        st.enter_async flt e nl = some st ∧ st.empty_queue flt = some st)
    ∧ (∀ (flt : Faults) (e e1 : List Char) (nl : Bool), flt.lock = false →
        st.format_entry flt e nl = some (false, e1) → st.enter_async flt e nl = some st)
    ∧ (∀ (flt : Faults) (e t : List Char) (nl : Bool), flt.lock = false → flt.push = true →
        st.format_entry flt e nl = some (true, t) → st.enter_async flt e nl = some st)
    ∧ (∀ (flt : Faults) (e t : List Char) (nl : Bool), flt.lock = false → flt.push = false →
        st.format_entry flt e nl = some (true, t) →
        st.enter_async flt e nl = some { st with msgs := st.msgs ++ [t] })
    ∧ (∀ flt : Faults, flt.lock = false →
        st.empty_queue flt = some { st with cout := st.cout ++ st.msgs, msgs := [] }) := by
  have hdrain : ∀ flt : Faults, flt.lock = false →
      st.empty_queue flt = some { st with cout := st.cout ++ st.msgs, msgs := [] } := by
    intro flt hl
    have : st.empty_queue flt = st.empty_queue no_faults := by
      simp only [Log.empty_queue, hl, no_faults]
    rw [this, empty_queue_eq st hm]
  refine ⟨?_, ?_, ?_, ?_, ?_, ?_, hdrain⟩
  · intro flt e nl st1 h
    cases hl : flt.lock with
    | true =>
      rw [enter_async_lock_fault flt st e nl hl] at h
      simp only [Option.some.injEq] at h
      rw [← h, hm]
    | false =>
      rw [enter_async_cases flt st e nl hl hm] at h
      cases hf : st.format_entry flt e nl with
      | none => rw [hf] at h; simp at h
      | some r =>
        obtain ⟨b, t⟩ := r
        rw [hf] at h
        cases b with
        | false =>
          simp only [Option.some.injEq] at h
          rw [← h, hm]
        | true =>
          cases hp : flt.push with
          | true =>
            simp only [hp, if_true, Option.some.injEq] at h
            rw [← h, hm]
          | false =>
            simp only [hp, Bool.false_eq_true, if_false, Option.some.injEq] at h
            rw [← h]
            exact hm
  · intro flt st1 h
    cases hl : flt.lock with
    | true =>
      simp only [Log.empty_queue, hl, if_true, Option.some.injEq] at h
      rw [← h, hm]
    | false =>
      rw [hdrain flt hl] at h
      simp only [Option.some.injEq] at h
      rw [← h]
      exact hm
  · intro flt e nl hl
    exact ⟨enter_async_lock_fault flt st e nl hl, by simp [Log.empty_queue, hl]⟩
  · intro flt e e1 nl hl hf
    rw [enter_async_cases flt st e nl hl hm, hf]
  · intro flt e t nl hl hp hf
    rw [enter_async_cases flt st e nl hl hm, hf]
    simp [hp]
  · intro flt e t nl hl hp hf
    rw [enter_async_cases flt st e nl hl hm, hf]
    simp [hp]

/-- C16, at an asynchronous logger with a free mutex: after a push that throws
the mutex is free and the queue is as before. -/
theorem C16_lock_balance_witness :
    async_log.msgs_mutex = false
    ∧ async_log.enter_async ⟨false, false, false, true⟩ "ab".toList true = some async_log :=
  ⟨rfl, (C16_lock_balance async_log rfl).2.2.2.2.1 ⟨false, false, false, true⟩ "ab".toList
    "ab\n".toList true rfl rfl (by decide)⟩

/-! ## Theorems: termination of the indentation scan -/

theorem insert_copies_take_drop (L : List Char) (i n : Nat) (entry : List Char)
    (hi : i ≤ entry.length) :
    insert_copies L i n entry = entry.take i ++ copies L n ++ entry.drop i := by
  have h := insert_copies_append L (entry.take i) n (entry.drop i)
  rw [List.take_append_drop, List.length_take, Nat.min_eq_left hi] at h
  exact h

theorem scan_link (L : List Char) (k fuel : Nat) (s : ScanState) (hi : s.i < s.entry.length) :
    indent_scan false L k (fuel + 1) s.entry s.i s.insert
      = indent_scan false L k fuel (scan_step L k s).entry (scan_step L k s).i
          (scan_step L k s).insert := by
  obtain ⟨entry, i, ins⟩ := s
  simp only at hi
  have hlen : i < (if ins then insert_copies L i k entry else entry).length := by
    split
    · rw [insert_copies_length]; omega
    · exact hi
  rw [indent_scan, scan_step]
  simp only [hi, if_true, Bool.and_false, Bool.false_and, Bool.false_eq_true, if_false]
  rw [List.getElem?_eq_getElem hlen]

/-- A state from which the loop cannot be left: the index is inside the entry,
and an insertion is pending or a newline that is not the last character lies
ahead. -/
theorem scan_live_step (L : List Char) (k : Nat) (hk : 0 < k) (hL : '\n' ∈ L) (s : ScanState)
    (hi : s.i < s.entry.length)
    (hs : s.insert = true
      ∨ ∃ j, s.i ≤ j ∧ j + 1 < s.entry.length ∧ s.entry[j]? = some '\n') :
    (scan_step L k s).i = s.i + 1
    ∧ (scan_step L k s).i < (scan_step L k s).entry.length
    ∧ s.entry.length ≤ (scan_step L k s).entry.length
    ∧ ((scan_step L k s).insert = true
      ∨ ∃ j, (scan_step L k s).i ≤ j ∧ j + 1 < (scan_step L k s).entry.length
          ∧ (scan_step L k s).entry[j]? = some '\n') := by
  obtain ⟨entry, i, ins⟩ := s
  simp only at hi hs
  -- a newline that is not the last character lies at or after `i` in `entry1`
  have hnl : ∃ j, i ≤ j
      ∧ j + 1 < (if ins then insert_copies L i k entry else entry).length
      ∧ (if ins then insert_copies L i k entry else entry)[j]? = some '\n' := by
    cases ins with
    | false =>
      rcases hs with h | h
      · exact absurd h (by decide)
      · simpa using h
    | true =>
      obtain ⟨p, hp⟩ := List.mem_iff_getElem?.mp hL
      have hpl : p < L.length := by
        by_contra hc
        rw [List.getElem?_eq_none (by omega)] at hp
        exact absurd hp (by simp)
      obtain ⟨k1, rfl⟩ : ∃ k1, k = k1 + 1 := ⟨k - 1, by omega⟩
      refine ⟨i + p, by omega, ?_, ?_⟩
      · simp only [if_true]
        rw [insert_copies_length]
        have : L.length ≤ (k1 + 1) * L.length := Nat.le_mul_of_pos_left _ (by omega)
        omega
      · simp only [if_true]
        rw [insert_copies_take_drop L i (k1 + 1) entry (by omega), copies_succ,
          List.append_assoc, List.append_assoc]
        have htl : (entry.take i).length = i := by
          rw [List.length_take]; omega
        rw [List.getElem?_append_right (by omega), htl, Nat.add_sub_cancel_left,
          List.getElem?_append_left hpl]
        exact hp
  have hge : entry.length ≤ (if ins then insert_copies L i k entry else entry).length := by
    split
    · rw [insert_copies_length]; omega
    · exact Nat.le_refl _
  obtain ⟨j, hij, hj1, hjn⟩ := hnl
  have hlen : i < (if ins then insert_copies L i k entry else entry).length := by omega
  simp only [scan_step, List.getElem?_eq_getElem hlen]
  refine ⟨trivial, by omega, hge, ?_⟩
  by_cases hc : (if ins then insert_copies L i k entry else entry)[i] = '\n'
      ∧ i < (if ins then insert_copies L i k entry else entry).length - 1
  · left
    rw [if_pos hc]
  · right
    refine ⟨j, ?_, hj1, hjn⟩
    by_contra hlt
    have hji : j = i := by omega
    subst hji
    rw [List.getElem?_eq_getElem hlen] at hjn
    exact hc ⟨by simpa using hjn, by omega⟩


theorem scan_step_entry (L : List Char) (k : Nat) (s : ScanState) (hins : s.insert = false) :
    (scan_step L k s).entry = s.entry := by
  obtain ⟨entry, i, ins⟩ := s
  simp only at hins
  subst hins
  simp only [scan_step, Bool.false_eq_true, if_false]
  split <;> rfl

theorem scan_iter_add (L : List Char) (k : Nat) (n m : Nat) :
    ∀ s : ScanState, scan_iter L k (n + m) s = scan_iter L k m (scan_iter L k n s) := by
  induction n with
  | zero => intro s; rw [Nat.zero_add]; rfl
  | succ n ih =>
    intro s
    rw [show n + 1 + m = (n + m) + 1 by omega, scan_iter, scan_iter, ih]

theorem scan_iter_live (L : List Char) (k : Nat) (hk : 0 < k) (hL : '\n' ∈ L) (n : Nat) :
    ∀ s : ScanState, s.i < s.entry.length →
      (s.insert = true
        ∨ ∃ j, s.i ≤ j ∧ j + 1 < s.entry.length ∧ s.entry[j]? = some '\n') →
      (scan_iter L k n s).i = s.i + n
      ∧ (scan_iter L k n s).i < (scan_iter L k n s).entry.length
      ∧ ((scan_iter L k n s).insert = true
        ∨ ∃ j, (scan_iter L k n s).i ≤ j ∧ j + 1 < (scan_iter L k n s).entry.length
            ∧ (scan_iter L k n s).entry[j]? = some '\n') := by
  induction n with
  | zero => intro s hi hs; exact ⟨rfl, hi, hs⟩
  | succ n ih =>
    intro s hi hs
    obtain ⟨h1, h2, _, h4⟩ := scan_live_step L k hk hL s hi hs
    obtain ⟨g1, g2, g3⟩ := ih (scan_step L k s) h2 h4
    rw [scan_iter]
    exact ⟨by rw [g1, h1]; omega, g2, g3⟩

theorem scan_diverges (L : List Char) (k : Nat) (hk : 0 < k) (hL : '\n' ∈ L) (fuel : Nat) :
    ∀ s : ScanState, s.i < s.entry.length →
      (s.insert = true
        ∨ ∃ j, s.i ≤ j ∧ j + 1 < s.entry.length ∧ s.entry[j]? = some '\n') →
      indent_scan false L k fuel s.entry s.i s.insert = none := by
  induction fuel with
  | zero => intro s _ _; rfl
  | succ fuel ih =>
    intro s hi hs
    obtain ⟨_, h2, _, h4⟩ := scan_live_step L k hk hL s hi hs
    rw [scan_link L k fuel s hi]
    exact ih (scan_step L k s) h2 h4

theorem scan_next_insert (L : List Char) (k : Nat) (hk : 0 < k) (hL : '\n' ∈ L) (d : Nat) :
    ∀ s : ScanState, s.i < s.entry.length →
      (s.insert = true
        ∨ ∃ j, s.i ≤ j ∧ j + 1 < s.entry.length ∧ s.entry[j]? = some '\n') →
      s.entry.length - s.i ≤ d →
      ∃ m, (scan_iter L k m s).insert = true := by
  induction d with
  | zero => intro s hi _ hd; omega
  | succ d ih =>
    intro s hi hs hd
    cases hins : s.insert with
    | true => exact ⟨0, hins⟩
    | false =>
      obtain ⟨h1, h2, _, h4⟩ := scan_live_step L k hk hL s hi hs
      have he := scan_step_entry L k s hins
      obtain ⟨m, hm⟩ := ih (scan_step L k s) h2 h4 (by rw [he, h1]; omega)
      exact ⟨m + 1, by rw [scan_iter]; exact hm⟩

theorem indent_scan_nil (thr : Bool) (L : List Char) (k fuel : Nat) (ins : Bool) :
    indent_scan thr L k (fuel + 1) [] 0 ins = some (true, []) := by
  simp [indent_scan]


theorem scan_terminates_iff (L : List Char) (k : Nat) (hk : 0 < k) (e : List Char) :
    (∃ (fuel : Nat) (r : Bool × List Char), indent_scan false L k fuel e 0 true = some r)
      ↔ (e = [] ∨ '\n' ∉ L) := by
  constructor
  · rintro ⟨fuel, r, h⟩
    by_contra hc
    simp only [not_or, not_not] at hc
    have hd := scan_diverges L k hk hc.2 fuel ⟨e, 0, true⟩ (List.length_pos.mpr hc.1)
      (Or.inl rfl)
    simp only at hd
    rw [hd] at h
    exact absurd h (by simp)
  · intro h
    by_cases he : e = []
    · subst he
      exact ⟨1, _, indent_scan_nil false L k 0 true⟩
    · have hL : '\n' ∉ L := h.resolve_left he
      refine ⟨(indent_spec L k e).length + 1, (true, indent_spec L k e), ?_⟩
      rw [indent_scan_erase _ _ _ _ _ _ _ 0, scan_count_top L k hL e he _ (Nat.le_refl _)]
      rfl

theorem indent_entry_terminates_iff (st : Log) (e : List Char) :
    (∃ r : Bool × List Char, st.indent_entry no_faults e = some r)
      ↔ (st.indent_amt = 0 ∨ e = [] ∨ '\n' ∉ st.indentation) := by
  constructor
  · rintro ⟨r, h⟩
    by_contra hc
    simp only [not_or, not_not] at hc
    obtain ⟨hk, he, hL⟩ := hc
    have hd := scan_diverges st.indentation st.indent_amt (by omega) hL
      (scan_bound st.indentation st.indent_amt e) ⟨e, 0, true⟩ (List.length_pos.mpr he)
      (Or.inl rfl)
    simp only at hd
    have h0 : no_faults.insert = false := rfl
    rw [Log.indent_entry, if_pos (by omega), h0, hd] at h
    exact absurd h (by simp)
  · intro h
    by_cases hk : st.indent_amt = 0
    · exact ⟨(true, e), by rw [Log.indent_entry, if_neg (by omega)]⟩
    · by_cases he : e = []
      · subst he
        exact ⟨_, indent_entry_nil _ st⟩
      · have hL : '\n' ∉ st.indentation := (h.resolve_left hk).resolve_left he
        exact ⟨_, indent_entry_eq st e he hL⟩

/-- C18: without exceptions and with unbounded strings, `Log::indent_entry`
leaves its loop if and only if `indent_amt = 0`, or the entry is empty, or the
literal has no newline (for the loop run with any bound, and for the bound the
logger model uses).  For a non-empty entry, a depth of at least 1 and a literal
with a newline the loop is still running after every number of iterations: the
index stays below the size of the entry, and after every iteration another
insertion follows. -/
theorem C18_scan_termination (st : Log) (e : List Char) :
    ((st.indent_amt = 0
        ∨ ∃ (fuel : Nat) (r : Bool × List Char),
            indent_scan false st.indentation st.indent_amt fuel e 0 true = some r)
      ↔ (st.indent_amt = 0 ∨ e = [] ∨ '\n' ∉ st.indentation))
    ∧ ((∃ r : Bool × List Char, st.indent_entry no_faults e = some r)
      ↔ (st.indent_amt = 0 ∨ e = [] ∨ '\n' ∉ st.indentation))
    ∧ (0 < st.indent_amt → e ≠ [] → '\n' ∈ st.indentation →
        (∀ fuel : Nat,
          indent_scan false st.indentation st.indent_amt fuel e 0 true = none)
        ∧ st.indent_entry no_faults e = none
        ∧ (∀ n : Nat,
            (scan_iter st.indentation st.indent_amt n ⟨e, 0, true⟩).i = n
            ∧ (scan_iter st.indentation st.indent_amt n ⟨e, 0, true⟩).i
                < (scan_iter st.indentation st.indent_amt n ⟨e, 0, true⟩).entry.length)
        ∧ (∀ n : Nat, ∃ m : Nat, n ≤ m
            ∧ (scan_iter st.indentation st.indent_amt m ⟨e, 0, true⟩).insert = true))
    ∧ (∀ (fuel : Nat) (s : ScanState), s.i < s.entry.length →
        indent_scan false st.indentation st.indent_amt (fuel + 1) s.entry s.i s.insert
          = indent_scan false st.indentation st.indent_amt fuel
              (scan_step st.indentation st.indent_amt s).entry
              (scan_step st.indentation st.indent_amt s).i
              (scan_step st.indentation st.indent_amt s).insert) := by
  refine ⟨?_, indent_entry_terminates_iff st e, ?_,
    fun fuel s hi => scan_link st.indentation st.indent_amt fuel s hi⟩
  · by_cases hk : st.indent_amt = 0
    · simp [hk]
    · rw [scan_terminates_iff st.indentation st.indent_amt (by omega) e]
  · intro hk he hL
    have hpos : 0 < e.length := List.length_pos.mpr he
    refine ⟨?_, ?_, ?_, ?_⟩
    · intro fuel
      exact scan_diverges _ _ hk hL fuel ⟨e, 0, true⟩ hpos (Or.inl rfl)
    · have h0 : no_faults.insert = false := rfl
      rw [Log.indent_entry, if_pos hk, h0]
      exact scan_diverges _ _ hk hL _ ⟨e, 0, true⟩ hpos (Or.inl rfl)
    · intro n
      obtain ⟨h1, h2, _⟩ := scan_iter_live _ _ hk hL n ⟨e, 0, true⟩ hpos (Or.inl rfl)
      exact ⟨by rw [h1]; simp, h2⟩
    · intro n
      obtain ⟨_, h2, h3⟩ := scan_iter_live _ _ hk hL n ⟨e, 0, true⟩ hpos (Or.inl rfl)
      obtain ⟨m, hm⟩ := scan_next_insert _ _ hk hL _ _ h2 h3 (Nat.le_refl _)
      exact ⟨n + m, by omega, by rw [scan_iter_add]; exact hm⟩

/-- The scan of the entry `"a"` at depth 1 with the literal `"-\n"` has not left
its loop after 50 iterations. -/
theorem scan_newline_literal_example :
    indent_scan false "-\n".toList 1 50 "a".toList 0 true = none := by
  decide

/-! ## Theorems: synchronous and asynchronous runs -/

theorem sim_refl_opt (sa ss : Log) (h : Log.sim sa ss) : Log.sim_opt (some sa) (some ss) := h

theorem sim_enter (flt : Faults) (hl : flt.lock = false) (hp : flt.push = false)
    (sa ss : Log) (h : Log.sim sa ss) (e : List Char) (nl : Bool) :
    Log.sim_opt (sa.enter flt e nl) (ss.enter flt e nl) := by
  obtain ⟨hs, hm, hq, c, q, hcq, rfl⟩ := h
  obtain ⟨o, async, stopped, k, L, msgs, mtx, emp, cout⟩ := ss
  simp only at hs hm hq hcq
  subst hs hm hq hcq
  have hc := format_entry_congr flt ⟨o, false, stopped, k, L, [], false, emp, c ++ q⟩
    ⟨o, true, stopped, k, L, q, false, emp + 1, c⟩ e nl rfl rfl
  have ha := enter_async_cases flt ⟨o, true, stopped, k, L, q, false, emp + 1, c⟩ e nl hl rfl
  rw [hc] at ha
  cases hon : (o && !e.isEmpty) with
  | false =>
    simp only [Log.enter, Log.async_view, hon, Bool.false_eq_true, if_false]
    exact ⟨rfl, rfl, rfl, c, q, rfl, rfl⟩
  | true =>
    simp only [Log.enter, Log.async_view, hon, if_true, Bool.false_eq_true, if_false,
      Log.enter_sync]
    rw [ha]
    cases hf : Log.format_entry flt ⟨o, false, stopped, k, L, [], false, emp, c ++ q⟩ e nl with
    | none => trivial
    | some r =>
      obtain ⟨b, t⟩ := r
      cases b with
      | false => exact ⟨rfl, rfl, rfl, c, q, rfl, rfl⟩
      | true =>
        simp only [hp, Bool.false_eq_true, if_false]
        exact ⟨rfl, rfl, rfl, c, q ++ [t], by simp [Log.write_entry], rfl⟩


theorem sim_is_on (sa ss : Log) (h : Log.sim sa ss) : sa.is_on = ss.is_on := by
  obtain ⟨_, _, _, c, q, _, rfl⟩ := h
  rfl

theorem sim_indent (sa ss : Log) (h : Log.sim sa ss) (n : Nat) :
    Log.sim { sa with indent_amt := n } { ss with indent_amt := n } := by
  obtain ⟨hs, hm, hq, c, q, hcq, rfl⟩ := h
  exact ⟨hs, hm, hq, c, q, hcq, rfl⟩

theorem sim_switch (sa ss : Log) (h : Log.sim sa ss) (b : Bool) :
    Log.sim { sa with is_on := b } { ss with is_on := b } := by
  obtain ⟨hs, hm, hq, c, q, hcq, rfl⟩ := h
  exact ⟨hs, hm, hq, c, q, hcq, rfl⟩

theorem sim_submit (spacer : List Char) (dn : Bool) (flt : Faults) (hl : flt.lock = false)
    (hp : flt.push = false) (sa ss : Log) (h : Log.sim sa ss) (op : Submission) :
    Log.sim_opt (sa.submit spacer dn flt op) (ss.submit spacer dn flt op) := by
  have hon := sim_is_on sa ss h
  cases op with
  | enter text newline => exact sim_enter flt hl hp sa ss h text newline
  | enter_list name entries =>
    simp only [Log.submit, Log.enter_list, hon]
    split
    · split
      · exact h
      · exact sim_enter flt hl hp sa ss h _ false
    · exact h
  | enter_obj obj =>
    simp only [Log.submit, Log.enter_obj, hon]
    split
    · split
      · exact h
      · exact sim_enter flt hl hp sa ss h _ false
    · exact h
  | attempt text => exact sim_enter flt hl hp sa ss h _ false
  | finish => exact sim_enter flt hl hp sa ss h _ dn
  | brk => exact sim_enter flt hl hp _ _ (sim_indent sa ss h 0) _ false

theorem sim_perform (spacer : List Char) (dn : Bool) (flt : Faults) (hl : flt.lock = false)
    (hp : flt.push = false) (sa ss : Log) (h : Log.sim sa ss) (op : FacadeOp) :
    Log.sim_opt (sa.perform spacer dn flt op) (ss.perform spacer dn flt op) := by
  cases op with
  | submit op => exact sim_submit spacer dn flt hl hp sa ss h op
  | indent amt => exact sim_indent sa ss h amt
  | turn_on => exact sim_switch sa ss h true
  | turn_off => exact sim_switch sa ss h false

theorem sim_perform_all (spacer : List Char) (dn : Bool) (flt : Faults) (hl : flt.lock = false)
    (hp : flt.push = false) (ops : List FacadeOp) :
    ∀ sa ss : Log, Log.sim sa ss →
      Log.sim_opt (sa.perform_all spacer dn flt ops) (ss.perform_all spacer dn flt ops) := by
  induction ops with
  | nil => intro sa ss h; exact h
  | cons op ops ih =>
    intro sa ss h
    have h1 := sim_perform spacer dn flt hl hp sa ss h op
    rw [Log.perform_all, Log.perform_all]
    cases ha : sa.perform spacer dn flt op with
    | none =>
      cases hs : ss.perform spacer dn flt op with
      | none => trivial
      | some ss1 => rw [ha, hs] at h1; exact absurd h1 (by simp [Log.sim_opt])
    | some sa1 =>
      cases hs : ss.perform spacer dn flt op with
      | none => rw [ha, hs] at h1; exact absurd h1 (by simp [Log.sim_opt])
      | some ss1 =>
        rw [ha, hs] at h1
        exact ih sa1 ss1 h1

theorem sim_async_off (sa ss : Log) (h : Log.sim sa ss) : sa.async_off no_faults = some ss := by
  obtain ⟨hs, hm, hq, c, q, hcq, rfl⟩ := h
  obtain ⟨o, async, stopped, k, L, msgs, mtx, emp, cout⟩ := ss
  simp only at hs hm hq hcq
  subst hs hm hq hcq
  rw [async_off_eq _ rfl rfl]
  simp [Log.async_view]

theorem sim_async_on (st : Log) (hs : st.async = false) (hm : st.msgs_mutex = false)
    (hq : st.msgs = []) : Log.sim st.async_on st := by
  refine ⟨hs, hm, hq, st.cout, [], by simp, ?_⟩
  obtain ⟨o, async, stopped, k, L, msgs, mtx, emp, cout⟩ := st
  simp only at hs hm hq
  subst hs hm hq
  rfl

theorem sim_opt_async_off (ra rs : Option Log) (h : Log.sim_opt ra rs) :
    ra.bind (Log.async_off no_faults) = rs := by
  cases ra with
  | none =>
    cases rs with
    | none => rfl
    | some ss => exact absurd h (by simp [Log.sim_opt])
  | some sa =>
    cases rs with
    | none => exact absurd h (by simp [Log.sim_opt])
    | some ss => exact sim_async_off sa ss h


theorem sim_write_front (sa ss : Log) (h : Log.sim sa ss) : Log.sim sa.write_front ss := by
  obtain ⟨hs, hm, hq, c, q, hcq, rfl⟩ := h
  cases q with
  | nil => exact ⟨hs, hm, hq, c, [], hcq, rfl⟩
  | cons m ms =>
    refine ⟨hs, hm, hq, c ++ [m], ms, by rw [← hcq]; simp, ?_⟩
    simp [Log.write_front, Log.write_entry, Log.async_view]

theorem sim_empty_queue (sa ss : Log) (h : Log.sim sa ss) :
    Log.sim_opt (sa.empty_queue no_faults) (some ss) := by
  obtain ⟨hs, hm, hq, c, q, hcq, rfl⟩ := h
  have he := empty_queue_eq (ss.async_view c q) hm
  rw [he]
  exact ⟨hs, hm, hq, c ++ q, [], by rw [← hcq]; simp, by simp [Log.async_view]⟩

theorem sim_events (spacer : List Char) (dn : Bool) (flt : Faults) (hl : flt.lock = false)
    (hp : flt.push = false) (evs : List AsyncEvent) :
    ∀ sa ss : Log, Log.sim sa ss →
      Log.sim_opt (sa.events spacer dn flt evs)
        (ss.perform_all spacer dn flt (caller_ops evs)) := by
  induction evs with
  | nil => intro sa ss h; exact h
  | cons ev evs ih =>
    intro sa ss h
    cases ev with
    | call op =>
      have h1 := sim_perform spacer dn flt hl hp sa ss h op
      rw [Log.events, Log.event, caller_ops, Log.perform_all]
      cases ha : sa.perform spacer dn flt op with
      | none =>
        cases hs : ss.perform spacer dn flt op with
        | none => trivial
        | some ss1 => rw [ha, hs] at h1; exact absurd h1 (by simp [Log.sim_opt])
      | some sa1 =>
        cases hs : ss.perform spacer dn flt op with
        | none => rw [ha, hs] at h1; exact absurd h1 (by simp [Log.sim_opt])
        | some ss1 =>
          rw [ha, hs] at h1
          exact ih sa1 ss1 h1
    | pop =>
      rw [Log.events, Log.event, caller_ops]
      exact ih _ ss (sim_write_front sa ss h)
    | drain =>
      have h1 := sim_empty_queue sa ss h
      rw [Log.events, Log.event, caller_ops]
      cases ha : sa.empty_queue no_faults with
      | none => rw [ha] at h1; exact absurd h1 (by simp [Log.sim_opt])
      | some sa1 =>
        rw [ha] at h1
        exact ih sa1 ss h1

/-- C17: for every sequence of facade operations (submissions, `indent(n)`,
`turn_on`, `turn_off`), started from a synchronous state with an empty queue
and a free mutex: switching to asynchronous mode, executing the sequence and
calling `async_off` ends in the state in which the synchronous execution of
the sequence ends, the sink included (and does not return if and only if the
synchronous execution does not return).  Before `async_off`, the texts written
followed by the queue are the sink of the synchronous run, so every entry is
formatted with the depth in force when it was submitted.  The same holds when
steps of the drain worker are interleaved with the operations in any way. -/
theorem C17_sync_async_equivalence (spacer : List Char) (default_newline : Bool)
    (flt : Faults) (hl : flt.lock = false) (hp : flt.push = false)
    (st : Log) (hs : st.async = false) (hm : st.msgs_mutex = false) (hq : st.msgs = [])
    (ops : List FacadeOp) :
    (st.async_on.perform_all spacer default_newline flt ops).bind (Log.async_off no_faults)
      = st.perform_all spacer default_newline flt ops
    ∧ (∀ ss : Log, st.perform_all spacer default_newline flt ops = some ss →
        ∃ sa : Log, st.async_on.perform_all spacer default_newline flt ops = some sa
          ∧ sa.cout ++ sa.msgs = ss.cout
          ∧ sa.indent_amt = ss.indent_amt
          ∧ sa.async_off no_faults = some ss)
    ∧ (∀ evs : List AsyncEvent, caller_ops evs = ops →
        (st.async_on.events spacer default_newline flt evs).bind (Log.async_off no_faults)
          = st.perform_all spacer default_newline flt ops) := by
  have h := sim_perform_all spacer default_newline flt hl hp ops st.async_on st
    (sim_async_on st hs hm hq)
  refine ⟨sim_opt_async_off _ _ h, ?_, ?_⟩
  rotate_left
  · intro evs hev
    rw [← hev]
    exact sim_opt_async_off _ _
      (sim_events spacer default_newline flt hl hp evs st.async_on st (sim_async_on st hs hm hq))
  intro ss hss
  rw [hss] at h
  cases ha : st.async_on.perform_all spacer default_newline flt ops with
  | none => rw [ha] at h; exact absurd h (by simp [Log.sim_opt])
  | some sa =>
    rw [ha] at h
    have h1 : Log.sim sa ss := h
    refine ⟨sa, rfl, ?_, ?_, sim_async_off sa ss h1⟩
    · obtain ⟨_, _, _, c, q, hcq, rfl⟩ := h1
      exact hcq
    · obtain ⟨_, _, _, c, q, hcq, rfl⟩ := h1
      rfl

/-- C17, at depth 2 with the literal `"--"`: the entry `"a"` is submitted at
depth 2 and drained when the depth is 0; it is written with the indentation of
depth 2, as in the synchronous run. -/
theorem C17_sync_async_equivalence_witness :
    (sample_log.async_on.perform_all "  ".toList true no_faults two_depths).bind
        (Log.async_off no_faults)
      = some { sample_log with indent_amt := 0, cout := ["----a\n".toList, "b\n".toList] } := by
  rw [(C17_sync_async_equivalence "  ".toList true no_faults rfl rfl sample_log rfl rfl rfl
    two_depths).1]
  decide

/-! ## Theorems: the default physical device -/

theorem select_step_inv (devs : List PhysDevice) (i : Nat) (dev : PhysDevice) (s : Selection)
    (hdev : devs[i]? = some dev)
    (hidx : s.ndx = 0 ∨ s.ndx < i)
    (hdis : s.type = VkPhysicalDeviceType.discrete_gpu →
      s.ndx < i ∧ devs[s.ndx]? = some ⟨VkPhysicalDeviceType.discrete_gpu, s.mem⟩
      ∧ (∀ j d, j < i → devs[j]? = some d → d.type = VkPhysicalDeviceType.discrete_gpu →
          d.mem ≤ s.mem)
      ∧ (∀ j d, j < s.ndx → devs[j]? = some d → d.type = VkPhysicalDeviceType.discrete_gpu →
          d.mem < s.mem))
    (hnot : s.type ≠ VkPhysicalDeviceType.discrete_gpu →
      ∀ j d, j < i → devs[j]? = some d → d.type ≠ VkPhysicalDeviceType.discrete_gpu) :
    ((select_step i dev s).ndx = 0 ∨ (select_step i dev s).ndx < i + 1)
    ∧ ((select_step i dev s).type = VkPhysicalDeviceType.discrete_gpu →
      (select_step i dev s).ndx < i + 1
      ∧ devs[(select_step i dev s).ndx]?
          = some ⟨VkPhysicalDeviceType.discrete_gpu, (select_step i dev s).mem⟩
      ∧ (∀ j d, j < i + 1 → devs[j]? = some d → d.type = VkPhysicalDeviceType.discrete_gpu →
          d.mem ≤ (select_step i dev s).mem)
      ∧ (∀ j d, j < (select_step i dev s).ndx → devs[j]? = some d →
          d.type = VkPhysicalDeviceType.discrete_gpu → d.mem < (select_step i dev s).mem))
    ∧ ((select_step i dev s).type ≠ VkPhysicalDeviceType.discrete_gpu →
      ∀ j d, j < i + 1 → devs[j]? = some d → d.type ≠ VkPhysicalDeviceType.discrete_gpu) := by
  obtain ⟨dt, dm⟩ := dev
  obtain ⟨n, m, t⟩ := s
  simp only at hidx hdis hnot
  have hlast : ∀ j d, j < i + 1 → devs[j]? = some d → j < i ∨ d = ⟨dt, dm⟩ := by
    intro j d hj hd
    by_cases hji : j < i
    · exact Or.inl hji
    · have : j = i := by omega
      subst this
      rw [hdev] at hd
      exact Or.inr (Option.some.inj hd).symm
  by_cases hc : (dt = VkPhysicalDeviceType.discrete_gpu
        ∧ t ≠ VkPhysicalDeviceType.discrete_gpu)
      ∨ (dt = VkPhysicalDeviceType.integrated_gpu ∧ t = VkPhysicalDeviceType.cpu)
      ∨ (dm > m ∧ dt = t)
  · -- the device is chosen
    have hsel : select_step i ⟨dt, dm⟩ ⟨n, m, t⟩ = ⟨i, dm, dt⟩ := by
      simp only [select_step]
      rw [if_pos hc]
    rw [hsel]
    dsimp only
    refine ⟨Or.inr (by omega), ?_, ?_⟩
    · intro hty
      subst hty
      refine ⟨by omega, hdev, ?_, ?_⟩
      · intro j d hj hd hdt
        rcases hlast j d hj hd with hji | rfl
        · by_cases ht : t = VkPhysicalDeviceType.discrete_gpu
          · have h1 := (hdis ht).2.2.1 j d hji hd hdt
            rcases hc with hc | hc | hc
            · exact absurd ht hc.2
            · exact absurd hc.1 (by decide)
            · omega
          · exact absurd hdt (hnot ht j d hji hd)
        · exact Nat.le_refl _
      · intro j d hj hd hdt
        by_cases ht : t = VkPhysicalDeviceType.discrete_gpu
        · have h1 := (hdis ht).2.2.1 j d hj hd hdt
          rcases hc with hc | hc | hc
          · exact absurd ht hc.2
          · exact absurd hc.1 (by decide)
          · omega
        · exact absurd hdt (hnot ht j d hj hd)
    · intro hty j d hj hd
      rcases hlast j d hj hd with hji | rfl
      · have ht : t ≠ VkPhysicalDeviceType.discrete_gpu := by
          intro ht
          rcases hc with hc | hc | hc
          · exact hc.2 ht
          · rw [ht] at hc; exact absurd hc.2 (by decide)
          · rw [ht] at hc; exact hty hc.2
        exact hnot ht j d hji hd
      · exact hty
  · -- the selection is kept
    have hsel : select_step i ⟨dt, dm⟩ ⟨n, m, t⟩ = ⟨n, m, t⟩ := by
      simp only [select_step]
      rw [if_neg hc]
    rw [hsel]
    dsimp only
    simp only [not_or, not_and] at hc
    refine ⟨by omega, ?_, ?_⟩
    · intro ht
      obtain ⟨h1, h2, h3, h4⟩ := hdis ht
      refine ⟨by omega, h2, ?_, h4⟩
      intro j d hj hd hdt
      rcases hlast j d hj hd with hji | rfl
      · exact h3 j d hji hd hdt
      · dsimp only at hdt ⊢
        have := hc.2.2
        by_contra hgt
        exact this (by omega) (by rw [hdt, ht])
    · intro ht j d hj hd
      rcases hlast j d hj hd with hji | rfl
      · exact hnot ht j d hji hd
      · intro hdt
        exact hc.1 hdt ht



theorem select_step_keeps (devs : List PhysDevice) (i : Nat) (dev : PhysDevice) (s : Selection)
    (hdev : devs[i]? = some dev) (h : select_inv devs i s) :
    select_inv devs (i + 1) (select_step i dev s) :=
  select_step_inv devs i dev s hdev h.1 h.2.1 h.2.2

theorem select_loop_inv (devs : List PhysDevice) (fuel : Nat) :
    ∀ (i : Nat) (s : Selection), i ≤ devs.length → devs.length ≤ i + fuel →
      select_inv devs i s →
      ∃ s1 : Selection, select_loop devs fuel i s = some s1 ∧ select_inv devs devs.length s1 := by
  induction fuel with
  | zero =>
    intro i s hi hf h
    have : i = devs.length := by omega
    subst this
    exact ⟨s, by simp [select_loop], h⟩
  | succ fuel ih =>
    intro i s hi hf h
    by_cases hlt : i < devs.length
    · rw [select_loop, if_pos hlt, List.getElem?_eq_getElem hlt]
      exact ih (i + 1) _ (by omega) (by omega)
        (select_step_keeps devs i _ s (List.getElem?_eq_getElem hlt) h)
    · have : i = devs.length := by omega
      subst this
      exact ⟨s, by simp [select_loop], h⟩

theorem select_inv_init (devs : List PhysDevice) :
    select_inv devs 0 ⟨0, 0, VkPhysicalDeviceType.cpu⟩ := by
  refine ⟨Or.inl rfl, fun h => absurd h (by decide), ?_⟩
  intro _ j d hj
  omega

theorem populate_default_many (pd : PhysDevices) (h2 : 2 ≤ pd.devs.length) :
    ∃ s : Selection, pd.populate_default = Except.ok { pd with default_dev := s.ndx }
      ∧ select_inv pd.devs pd.devs.length s := by
  obtain ⟨s, hs, hinv⟩ := select_loop_inv pd.devs pd.devs.length 0 ⟨0, 0, VkPhysicalDeviceType.cpu⟩
    (by omega) (by omega) (select_inv_init pd.devs)
  refine ⟨s, ?_, hinv⟩
  rw [PhysDevices.populate_default, if_neg (by omega), if_neg (by omega), hs]


theorem getElem?_lt_length {α : Type} (l : List α) (j : Nat) (d : α) (h : l[j]? = some d) :
    j < l.length := by
  by_contra hc
  rw [List.getElem?_eq_none (by omega)] at h
  exact absurd h (by simp)

/-- C19: when the list has a discrete GPU, `populate_default` returns with
`default_dev` the index of a discrete GPU whose memory is at least that of
every discrete GPU of the list and larger than that of every discrete GPU before
it (the first index of a discrete GPU with the largest memory), whatever the
other devices are; the list is unchanged. -/
theorem C19_prefers_best_discrete (pd : PhysDevices)
    (hd : ∃ d ∈ pd.devs, d.type = VkPhysicalDeviceType.discrete_gpu) :
    ∃ (n : Nat) (best : PhysDevice),
      pd.populate_default = Except.ok { pd with default_dev := n }
      ∧ pd.devs[n]? = some best
      ∧ best.type = VkPhysicalDeviceType.discrete_gpu
      ∧ (∀ d ∈ pd.devs, d.type = VkPhysicalDeviceType.discrete_gpu → d.mem ≤ best.mem)
      ∧ (∀ j d, j < n → pd.devs[j]? = some d →
          d.type = VkPhysicalDeviceType.discrete_gpu → d.mem < best.mem) := by
  obtain ⟨d0, hd0, hd0t⟩ := hd
  by_cases h2 : 2 ≤ pd.devs.length
  · obtain ⟨s, hs, _, hdis, hnot⟩ := populate_default_many pd h2
    obtain ⟨j0, hj0⟩ := List.mem_iff_getElem?.mp hd0
    have hj0l := getElem?_lt_length _ _ _ hj0
    have hty : s.type = VkPhysicalDeviceType.discrete_gpu := by
      by_contra hc
      exact hnot hc j0 d0 hj0l hj0 hd0t
    obtain ⟨_, hbest, hmax, hfirst⟩ := hdis hty
    refine ⟨s.ndx, ⟨VkPhysicalDeviceType.discrete_gpu, s.mem⟩, hs, hbest, rfl, ?_, hfirst⟩
    intro d hdm hdt
    obtain ⟨j, hj⟩ := List.mem_iff_getElem?.mp hdm
    exact hmax j d (getElem?_lt_length _ _ _ hj) hj hdt
  · obtain ⟨devs, dflt⟩ := pd
    cases devs with
    | nil => simp at hd0
    | cons a t =>
      cases t with
      | cons b t => simp at h2
      | nil =>
        simp only [List.mem_singleton] at hd0
        subst hd0
        refine ⟨0, d0, ?_, rfl, hd0t, ?_, ?_⟩
        · simp [PhysDevices.populate_default]
        · intro d hdm _
          simp only [List.mem_singleton] at hdm
          rw [hdm]
        · intro j d hj
          omega

/-- C19, at three devices: the first of the two discrete GPUs with the same
memory is chosen, not the integrated GPU with more memory. -/
theorem C19_prefers_best_discrete_witness :
    three_devices.populate_default = Except.ok { three_devices with default_dev := 1 }
    ∧ ∃ (n : Nat) (best : PhysDevice),
      three_devices.populate_default = Except.ok { three_devices with default_dev := n }
      ∧ three_devices.devs[n]? = some best
      ∧ best.type = VkPhysicalDeviceType.discrete_gpu
      ∧ (∀ d ∈ three_devices.devs, d.type = VkPhysicalDeviceType.discrete_gpu →
          d.mem ≤ best.mem)
      ∧ (∀ j d, j < n → three_devices.devs[j]? = some d →
          d.type = VkPhysicalDeviceType.discrete_gpu → d.mem < best.mem) :=
  ⟨rfl,
    C19_prefers_best_discrete three_devices
      ⟨⟨VkPhysicalDeviceType.discrete_gpu, 8⟩, by decide, rfl⟩⟩

/-- C20: `populate_default` throws if and only if the list of devices is empty,
and then it throws the runtime error "no Vulkan-capable devices found!"; for a
non-empty list it returns with the list unchanged and `default_dev` an index of
the list, which is 0 when the list has one device. -/
theorem C20_populate_default_total (pd : PhysDevices) :
    ((∃ msg : String, pd.populate_default = Except.error msg) ↔ pd.devs = [])
    ∧ (pd.devs = [] →
        pd.populate_default = Except.error "no Vulkan-capable devices found!")
    ∧ (pd.devs ≠ [] →
        ∃ n : Nat, pd.populate_default = Except.ok { pd with default_dev := n }
          ∧ n < pd.devs.length
          ∧ (pd.devs.length = 1 → n = 0)) := by
  have hne : pd.devs ≠ [] →
      ∃ n : Nat, pd.populate_default = Except.ok { pd with default_dev := n }
        ∧ n < pd.devs.length ∧ (pd.devs.length = 1 → n = 0) := by
    intro h
    have hpos : 0 < pd.devs.length := List.length_pos.mpr h
    by_cases h2 : 2 ≤ pd.devs.length
    · obtain ⟨s, hs, hidx, _, _⟩ := populate_default_many pd h2
      exact ⟨s.ndx, hs, by omega, by omega⟩
    · have h1 : pd.devs.length = 1 := by omega
      refine ⟨0, ?_, hpos, fun _ => rfl⟩
      rw [PhysDevices.populate_default, if_neg (by omega), if_pos h1]
  have hnil : pd.devs = [] →
      pd.populate_default = Except.error "no Vulkan-capable devices found!" := by
    intro h
    rw [PhysDevices.populate_default, if_pos (by rw [h]; rfl)]
  refine ⟨⟨?_, fun h => ⟨_, hnil h⟩⟩, hnil, hne⟩
  rintro ⟨msg, hmsg⟩
  by_contra hc
  obtain ⟨n, hn, _⟩ := hne hc
  rw [hn] at hmsg
  exact absurd hmsg (by simp)

end cu
